import Mathlib

/-!
# PyChemistry — verification of `pychemistry/PeriodicTable.py`

Shallow embedding of the spelling engine (`Graph`, `build_spelling_graph`,
`find_all_paths`, `spell`) and of the molecular-mass calculator
(`PeriodicTable.get_relative_atomic_mass`,
`PeriodicTable.calculate_relative_molecular_mass`).

Strings are modelled as `List Char`; Python's case operations are modelled on
ASCII letters, which is the domain the program works over (element symbols and
letter words).
-/

namespace PyChemistry

/-- Python `str.capitalize()`: first character uppercased, the rest
lowercased (ASCII model). -/
def capitalize (s : List Char) : List Char :=
  match s with
  | [] => []
  | c :: cs => c.toUpper :: cs.map Char.toLower

/-- The 118 element symbols, as in `ELEMENTS` of `PeriodicTable.py`. -/
def ELEMENTS : List (List Char) :=
  (["H", "He", "Li", "Be", "B", "C", "N", "O", "F", "Ne", "Na", "Mg", "Al",
    "Si", "P", "S", "Cl", "Ar", "K", "Ca", "Sc", "Ti", "V", "Cr", "Mn", "Fe",
    "Co", "Ni", "Cu", "Zn", "Ga", "Ge", "As", "Se", "Br", "Kr", "Rb", "Sr", "Y",
    "Zr", "Nb", "Mo", "Tc", "Ru", "Rh", "Pd", "Ag", "Cd", "In", "Sn", "Sb",
    "Te", "I", "Xe", "Cs", "Ba", "La", "Ce", "Pr", "Nd", "Pm", "Sm", "Eu", "Gd",
    "Tb", "Dy", "Ho", "Er", "Tm", "Yb", "Lu", "Hf", "Ta", "W", "Re", "Os", "Ir",
    "Pt", "Au", "Hg", "Tl", "Pb", "Bi", "Po", "At", "Rn", "Fr", "Ra", "Ac",
    "Th", "Pa", "U", "Np", "Pu", "Am", "Cm", "Bk", "Cf", "Es", "Fm", "Md", "No",
    "Lr", "Rf", "Db", "Sg", "Bh", "Hs", "Mt", "Ds", "Rg", "Cn", "Nh", "Fl",
    "Mc", "Lv", "Ts", "Og"] : List String).map String.toList

/-- `Node = namedtuple('Node', ['value', 'position'])`: a glyph and its
position in the word. -/
structure Node where
  value : List Char
  position : Nat
deriving DecidableEq, Repr

/-- Insert a pair into a list used as a set (Python `set.add`). -/
def insertPC (l : List (Option Node × Node)) (e : Option Node × Node) :
    List (Option Node × Node) :=
  if e ∈ l then l else e :: l

/-- The `Graph` class: `_parents_of` maps a child key (possibly the `None`
sentinel) to the set of its (non-`None`) parents, stored here as a list of
(child key, parent) pairs; `_children_of` maps a parent key (possibly `None`)
to its (non-`None`) children, stored as (parent key, child) pairs. -/
structure Graph where
  parents_of : List (Option Node × Node)
  children_of : List (Option Node × Node)
deriving DecidableEq, Repr

/-- `Graph.add_edge`: `None` is ok as a key, but not a value. -/
def Graph.add_edge (g : Graph) (parent child : Option Node) : Graph :=
  let g1 :=
    match parent with
    | none => g
    | some p => { g with parents_of := insertPC g.parents_of (child, p) }
  match child with
  | none => g1
  | some c => { g1 with children_of := insertPC g1.children_of (parent, c) }

/-- `Graph.firsts`: the children of the `None` start sentinel.  (Python
returns a set; we return the list of recorded pairs' children, which is
duplicate-free because `insertPC` never duplicates a pair.) -/
def Graph.firsts (g : Graph) : List Node :=
  (g.children_of.filter (fun e => e.1.isNone)).map Prod.snd

/-- `Graph.lasts`: the parents of the `None` end sentinel. -/
def Graph.lasts (g : Graph) : List Node :=
  (g.parents_of.filter (fun e => e.1.isNone)).map Prod.snd

/-- The recursive worker `pop_root` of `build_spelling_graph`.  The state is
the graph together with the `processed` set of already-expanded remaining
suffixes.  Single- and double-character roots are popped off the front of
`remaining`; an edge `previous_root → root` is added whenever the capitalized
root is in `symbols`, and the recursion into the rest fires only when the
current `remaining` has not been processed before. -/
def pop_root (symbols : List (List Char)) :
    List Char → Nat → Option Node → Graph × List (List Char) →
      Graph × List (List Char)
  | [], _, previous_root, (g, pr) => (g.add_edge previous_root none, pr)
  | c :: rest, position, previous_root, (g, pr) =>
    let remaining := c :: rest
    let st1 : Graph × List (List Char) :=
      if capitalize [c] ∈ symbols then
        let single_root : Node := ⟨[c], position⟩
        let g1 := g.add_edge previous_root (some single_root)
        if remaining ∈ pr then (g1, pr)
        else pop_root symbols rest (position + 1) (some single_root) (g1, pr)
      else (g, pr)
    let st2 : Graph × List (List Char) :=
      match rest with
      | [] => st1
      | d :: rest2 =>
        if capitalize [c, d] ∈ symbols then
          let double_root : Node := ⟨[c, d], position⟩
          let g2 := st1.1.add_edge previous_root (some double_root)
          if remaining ∈ st1.2 then (g2, st1.2)
          else pop_root symbols rest2 (position + 2) (some double_root)
            (g2, st1.2)
        else st1
    (st2.1, remaining :: st2.2)

/-- `build_spelling_graph(word, graph, symbols)`: run `pop_root` on the word
starting from an empty `processed` set. -/
def build_spelling_graph (word : List Char) (graph : Graph)
    (symbols : List (List Char)) : Graph :=
  (pop_root symbols word 0 none (graph, [])).1

/-- Children of a node under the parent→children adjacency list. -/
def childrenOf (ptc : List (Option Node × Node)) (n : Node) : List Node :=
  (ptc.filter (fun e => e.1 = some n)).map Prod.snd

/-- `find_all_paths(parents_to_children, start, end, path)`: all simple paths
from `start` to `fin`.  The Python function recurses without a fuel argument;
here `fuel` bounds the recursion depth and is chosen by the caller strictly
larger than the number of adjacency entries, which exceeds the length of any
simple path, so the recursion is never cut short.  (Python's early return
when `start` is not a key is the `flatMap` over an empty child list; Python's
set-iteration order only permutes the resulting list, which `spell` sorts.) -/
def find_all_paths (ptc : List (Option Node × Node)) :
    Nat → Node → Node → List Node → List (List Node)
  | 0, _, _, _ => []
  | fuel + 1, start, fin, path =>
    let path := path ++ [start]
    if start = fin then [path]
    else
      ((childrenOf ptc start).filter (fun n => n ∉ path)).flatMap
        (fun n => find_all_paths ptc fuel n fin path)

/-- Digit stripping: `spell` removes `'1'`–`'9'` and `'0'` from the word. -/
def stripDigits (w : List Char) : List Char := w.filter (fun c => !c.isDigit)

/-- Strict lexicographic comparison of char lists by code point (Python
string `<`). -/
def ltCh : List Char → List Char → Bool
  | [], [] => false
  | [], _ :: _ => true
  | _ :: _, [] => false
  | a :: as, b :: bs => a < b || (a = b && ltCh as bs)

/-- Strict lexicographic comparison of spellings (Python tuple-of-strings
`<`). -/
def ltSp : List (List Char) → List (List Char) → Bool
  | [], [] => false
  | [], _ :: _ => true
  | _ :: _, [] => false
  | a :: as, b :: bs => ltCh a b || (a = b && ltSp as bs)

/-- Insert into a descending-sorted list of spellings. -/
def descInsert (x : List (List Char)) :
    List (List (List Char)) → List (List (List Char))
  | [] => [x]
  | y :: ys => if ltSp x y then y :: descInsert x ys else x :: y :: ys

/-- `sorted(…, reverse=True)`: sort spellings in descending lexicographic
order. -/
def sortDesc : List (List (List Char)) → List (List (List Char))
  | [] => []
  | x :: xs => descInsert x (sortDesc xs)

/-- `spell(word, symbols=ELEMENTS)`: strip digits, build the graph, collect
the rendered paths between all firsts/lasts pairs and sort them in
descending order.  Note that the source calls `build_spelling_graph(word, g)`
without forwarding `symbols`, so the graph is always built over `ELEMENTS`
and the `symbols` parameter of `spell` is unused. -/
def spell (word : List Char) (symbols : List (List Char)) :
    List (List (List Char)) :=
  let word := stripDigits word
  let g := build_spelling_graph word ⟨[], []⟩ ELEMENTS
  let spellings :=
    g.firsts.flatMap (fun first =>
      g.lasts.flatMap (fun last =>
        (find_all_paths g.children_of (g.children_of.length + 1) first last
          []).map
          (fun path => path.map (fun node => capitalize node.value))))
  sortDesc spellings

/-- One entry of the `PeriodicTable.mendeleev_table` dictionary. -/
structure ElementInfo where
  name : String
  atomic_number : Nat
  outer_layout_electron_conf : String
  relative_atomic_mass : Nat
deriving DecidableEq, Repr

/-- `PeriodicTable.__init__`: the table with its only keys `'H'`, `'Li'`,
`'Be'`. -/
def mendeleev_table : List (List Char × ElementInfo) :=
  [("H".toList, ⟨"Водород / Hydrogen", 1, "1s^1", 1⟩),
   ("Li".toList, ⟨"Литий / Lithium", 3, "2s^1", 7⟩),
   ("Be".toList, ⟨"Бериллий / Beryllium", 4, "2s^2", 9⟩)]

/-- Dictionary lookup in `mendeleev_table`. -/
def tableLookup : List (List Char × ElementInfo) → List Char →
    Option ElementInfo
  | [], _ => none
  | (k, v) :: rest, e => if k = e then some v else tableLookup rest e

/-- `PeriodicTable.get_relative_atomic_mass`: a failed dictionary lookup
(`KeyError`) is caught and turned into `0`. -/
def get_relative_atomic_mass (element : List Char) : Nat :=
  match tableLookup mendeleev_table element with
  | some info => info.relative_atomic_mass
  | none => 0

/-- Accumulate one scanned element into the running total;
`none` models the `KeyError` raised by `self.mendeleev_table[element]`,
which propagates out of `calculate_relative_molecular_mass` unmodified. -/
def addMass (element : List Char) (count : Nat) (rest : Option Nat) :
    Option Nat :=
  match tableLookup mendeleev_table element, rest with
  | some info, some t => some (info.relative_atomic_mass * count + t)
  | _, _ => none

/-- The `while` loop of `PeriodicTable.calculate_relative_molecular_mass`:
take one character, absorb a following lowercase character into the element
symbol, absorb a following single digit as the count, look the element up,
and continue with the rest. -/
def calc_loop : List Char → Option Nat
  | [] => some 0
  | [c] => addMass [c] 1 (calc_loop [])
  | c :: d :: rest2 =>
    if d.isLower then
      match rest2 with
      | [] => addMass [c, d] 1 (calc_loop [])
      | e :: rest3 =>
        if e.isDigit then addMass [c, d] (e.toNat - 48) (calc_loop rest3)
        else addMass [c, d] 1 (calc_loop (e :: rest3))
    else if d.isDigit then addMass [c] (d.toNat - 48) (calc_loop rest2)
    else addMass [c] 1 (calc_loop (d :: rest2))

/-- `PeriodicTable.calculate_relative_molecular_mass`; the `Option` is the
propagated `KeyError` for an unknown element. -/
def calculate_relative_molecular_mass (formule : List Char) : Option Nat :=
  calc_loop formule

/-- The element symbols extracted by the linear scan of
`calculate_relative_molecular_mass`, in order.  The scan's control flow
never consults the table, so this is exactly the sequence of keys the loop
looks up (would look up, past a failing one). -/
def scanned_elements : List Char → List (List Char)
  | [] => []
  | [c] => [[c]]
  | c :: d :: rest2 =>
    if d.isLower then
      match rest2 with
      | [] => [[c, d]]
      | e :: rest3 =>
        if e.isDigit then [c, d] :: scanned_elements rest3
        else [c, d] :: scanned_elements (e :: rest3)
    else if d.isDigit then [c] :: scanned_elements rest2
    else [c] :: scanned_elements (d :: rest2)

/-- Lookup in the `functools.cache` of `spell`, keyed by the word as the
program calls it (one positional argument). -/
def cache_lookup : List (List Char × List (List (List Char))) → List Char →
    Option (List (List (List Char)))
  | [], _ => none
  | (k, v) :: rest, w => if k = w then some v else cache_lookup rest w

/-- One cached call of `spell`: return the cached value if present,
otherwise compute and publish. -/
def cached_spell (cache : List (List Char × List (List (List Char))))
    (word : List Char) :
    List (List (List Char)) × List (List Char × List (List (List Char))) :=
  match cache_lookup cache word with
  | some r => (r, cache)
  | none => (spell word ELEMENTS, (word, spell word ELEMENTS) :: cache)

/-- Run a sequence of (possibly repeated, interleaved) `spell` queries
through the shared cache, collecting the answers. -/
def run_queries (cache : List (List Char × List (List (List Char)))) :
    List (List Char) → List (List (List (List Char)))
  | [] => []
  | w :: ws =>
    let r := cached_spell cache w
    r.1 :: run_queries r.2 ws

/-- Modelled from the spec: the set of all complete left-to-right partitions
of a word into valid 1- or 2-character symbol tokens, rendered as canonical
(capitalized) symbol sequences.  This is the specification-side comparison
object for the refinement claims about `spell`; it is written from the
spec's description of a segmentation, not from the source. -/
def specSegmentations (symbols : List (List Char)) :
    List Char → List (List (List Char))
  | [] => [[]]
  | c :: rest =>
    (if capitalize [c] ∈ symbols then
      (specSegmentations symbols rest).map (fun ss => capitalize [c] :: ss)
    else []) ++
    (match rest with
     | [] => []
     | d :: rest2 =>
       if capitalize [c, d] ∈ symbols then
         (specSegmentations symbols rest2).map
           (fun ss => capitalize [c, d] :: ss)
       else [])

/-- A Position Token that is valid for `word` and `symbols`: its glyph is the
1- or 2-character substring of `word` at its offset, fits inside the word,
and its capitalization is an allowed symbol. -/
def validTok (word : List Char) (symbols : List (List Char)) (t : Node) :
    Prop :=
  (t.value.length = 1 ∨ t.value.length = 2) ∧
  t.position + t.value.length ≤ word.length ∧
  t.value = (word.drop t.position).take t.value.length ∧
  capitalize t.value ∈ symbols

/-- Offset `q` can be reached from offset `p` by consuming consecutive valid
tokens. -/
inductive reachFrom (word : List Char) (symbols : List (List Char)) :
    Nat → Nat → Prop
  | refl (p : Nat) : reachFrom word symbols p p
  | step (p : Nat) (t : Node) (q : Nat) : t.position = p →
      validTok word symbols t →
      reachFrom word symbols (p + t.value.length) q →
      reachFrom word symbols p q

/-- Offset `p` is reachable from the start of the word. -/
def reachPos (word : List Char) (symbols : List (List Char)) (p : Nat) :
    Prop :=
  reachFrom word symbols 0 p

/-- Specification of a `children_of` entry (parent key, child) in the graph
built for `word`: the child is a valid token placed immediately after its
parent (or at offset 0 when the parent is the start sentinel), and the
parent sits at a reachable offset. -/
def childEntrySpec (word : List Char) (symbols : List (List Char))
    (e : Option Node × Node) : Prop :=
  validTok word symbols e.2 ∧
  match e.1 with
  | none => e.2.position = 0
  | some q => validTok word symbols q ∧ reachPos word symbols q.position ∧
      e.2.position = q.position + q.value.length

/-- Specification of a `parents_of` entry (child key, parent): the parent is
a valid token at a reachable offset whose segment is immediately followed by
the child's segment (or by the end of the word when the child is the end
sentinel). -/
def parentEntrySpec (word : List Char) (symbols : List (List Char))
    (e : Option Node × Node) : Prop :=
  validTok word symbols e.2 ∧ reachPos word symbols e.2.position ∧
  match e.1 with
  | none => e.2.position + e.2.value.length = word.length
  | some c => validTok word symbols c ∧
      c.position = e.2.position + e.2.value.length

/-- Build the token list of a segmentation: each glyph at its cumulative
offset. -/
def toNodes : List (List Char) → Nat → List Node
  | [], _ => []
  | g :: gs, p => ⟨g, p⟩ :: toNodes gs (p + g.length)

/-- Graph inclusion: the edge records of one graph are contained in those of
another. -/
def graphLE (g g' : Graph) : Prop :=
  g.children_of ⊆ g'.children_of ∧ g.parents_of ⊆ g'.parents_of

/-- All outgoing work of token `t` is recorded in `g`: edges to every valid
successor token, and the end-sentinel record when `t` ends the word. -/
def tokDone (word : List Char) (symbols : List (List Char)) (g : Graph)
    (t : Node) : Prop :=
  (∀ u, validTok word symbols u →
      u.position = t.position + t.value.length →
      (some t, u) ∈ g.children_of ∧ (some u, t) ∈ g.parents_of) ∧
  (t.position + t.value.length = word.length → (none, t) ∈ g.parents_of)

/-- Every valid token at offset `p` has been fully expanded in `g`. -/
def localExpanded (word : List Char) (symbols : List (List Char)) (g : Graph)
    (p : Nat) : Prop :=
  ∀ t, validTok word symbols t → t.position = p → tokDone word symbols g t

/-- Every offset reachable from `p` has been fully expanded in `g`. -/
def expandedFrom (word : List Char) (symbols : List (List Char)) (g : Graph)
    (p : Nat) : Prop :=
  ∀ q, reachFrom word symbols p q → localExpanded word symbols g q

/-- Invariant of the `(graph, processed)` state threaded through
`pop_root`. -/
structure StateOK (word : List Char) (symbols : List (List Char))
    (st : Graph × List (List Char)) : Prop where
  child : ∀ e ∈ st.1.children_of, childEntrySpec word symbols e
  parent : ∀ e ∈ st.1.parents_of, parentEntrySpec word symbols e
  cnodup : st.1.children_of.Nodup
  pnodup : st.1.parents_of.Nodup
  proc : ∀ r ∈ st.2, ∃ p, p ≤ word.length ∧ r = word.drop p ∧ r ≠ [] ∧
    reachPos word symbols p ∧ expandedFrom word symbols st.1 p

/-- Postcondition of a `pop_root` call on state `st` returning `st'`. -/
structure PopPost (word : List Char) (symbols : List (List Char))
    (rem : List Char) (p : Nat) (prev : Option Node)
    (st st' : Graph × List (List Char)) : Prop where
  ok : StateOK word symbols st'
  gmono : graphLE st.1 st'.1
  prmono : st.2 ⊆ st'.2
  pradd : ∀ r ∈ st'.2, r ∈ st.2 ∨ (r ≠ [] ∧ r.length ≤ rem.length)
  selfmem : rem ≠ [] → rem ∈ st'.2
  expanded : expandedFrom word symbols st'.1 p
  endEdge : rem = [] → ∀ q, prev = some q → (none, q) ∈ st'.1.parents_of
  intoTok : ∀ t, validTok word symbols t → t.position = p →
    (prev, t) ∈ st'.1.children_of ∧
    ∀ q, prev = some q → (some t, q) ∈ st'.1.parents_of

/-- Raw-glyph segmentations of a word: each glyph is one or two characters
whose capitalization is an allowed symbol, and the glyphs concatenate to the
word. -/
inductive IsSeg (symbols : List (List Char)) :
    List Char → List (List Char) → Prop
  | nil : IsSeg symbols [] []
  | one (c : Char) (w' : List Char) (gs : List (List Char)) :
      capitalize [c] ∈ symbols → IsSeg symbols w' gs →
      IsSeg symbols (c :: w') ([c] :: gs)
  | two (c d : Char) (w' : List Char) (gs : List (List Char)) :
      capitalize [c, d] ∈ symbols → IsSeg symbols w' gs →
      IsSeg symbols (c :: d :: w') ([c, d] :: gs)

/-- The `children_of` entries traversed by a path: the first node is entered
from `prev`, every later node from its predecessor. -/
def edgesOfPath : Option Node → List Node → List (Option Node × Node)
  | _, [] => []
  | prev, t :: rest => (prev, t) :: edgesOfPath (some t) rest

/-- One root branch of `pop_root`: add the edge `prev → root` and, unless
the current remaining suffix was already processed, recurse past the root's
glyph. -/
def branchStep (symbols : List (List Char)) (rem rem' : List Char) (p : Nat)
    (prev : Option Node) (root : Node) (st : Graph × List (List Char)) :
    Graph × List (List Char) :=
  let g1 := st.1.add_edge prev (some root)
  if rem ∈ st.2 then (g1, st.2)
  else pop_root symbols rem' (p + root.value.length) (some root) (g1, st.2)

/-- Postcondition of one root branch of `pop_root`. -/
structure BranchPost (word : List Char) (symbols : List (List Char))
    (rem : List Char) (p : Nat) (prev : Option Node) (root : Node)
    (st stB : Graph × List (List Char)) : Prop where
  ok : StateOK word symbols stB
  gmono : graphLE st.1 stB.1
  prmono : st.2 ⊆ stB.2
  pradd : ∀ r ∈ stB.2, r ∈ st.2 ∨ (r ≠ [] ∧ r.length < rem.length)
  rootDone : tokDone word symbols stB.1 root
  nextExp : expandedFrom word symbols stB.1 (p + root.value.length)
  inEdge : (prev, root) ∈ stB.1.children_of
  inEdgeP : ∀ q, prev = some q → (some root, q) ∈ stB.1.parents_of

/-! ## Basic lemmas -/

theorem stripDigits_idem (w : List Char) :
    stripDigits (stripDigits w) = stripDigits w := by
  induction w with
  | nil => rfl
  | cons c cs ih =>
    by_cases h : c.isDigit
    · simpa [stripDigits, h] using ih
    · simpa [stripDigits, h] using ih

theorem addMass_eq_none (el : List Char) (cnt : Nat) (r : Option Nat) :
    addMass el cnt r = none ↔
      tableLookup mendeleev_table el = none ∨ r = none := by
  unfold addMass
  cases tableLookup mendeleev_table el <;> cases r <;> simp

theorem calc_loop_eq_none_iff (f : List Char) :
    calc_loop f = none ↔
      ∃ e ∈ scanned_elements f, tableLookup mendeleev_table e = none := by
  induction f using calc_loop.induct with
  | case1 => simp [calc_loop, scanned_elements]
  | case2 c ih => simp [calc_loop, scanned_elements, addMass_eq_none]
  | case3 c d h ih => simp [calc_loop, scanned_elements, h, addMass_eq_none]
  | case4 c d h e rest3 he ih =>
    simp [calc_loop, scanned_elements, h, he, addMass_eq_none, ih]
  | case5 c d h e rest3 he ih =>
    simp [calc_loop, scanned_elements, h, he, addMass_eq_none, ih]
  | case6 c d rest2 h hd ih =>
    cases rest2 <;>
      simp [calc_loop, scanned_elements, h, hd, addMass_eq_none, ih]
  | case7 c d rest2 h hd ih =>
    cases rest2 <;>
      simp [calc_loop, scanned_elements, h, hd, addMass_eq_none, ih]

theorem get_ram_of_lookup_none (el : List Char)
    (h : tableLookup mendeleev_table el = none) :
    get_relative_atomic_mass el = 0 := by
  unfold get_relative_atomic_mass
  rw [h]

theorem run_queries_spec (ws : List (List Char)) :
    ∀ cache, (∀ k v, cache_lookup cache k = some v → v = spell k ELEMENTS) →
      run_queries cache ws = ws.map (fun w => spell w ELEMENTS) := by
  induction ws with
  | nil => intro cache _; rfl
  | cons w ws ih =>
    intro cache hc
    simp only [run_queries, cached_spell, List.map_cons]
    cases h : cache_lookup cache w with
    | some r =>
      simp only []
      rw [hc w r h, ih cache hc]
    | none =>
      simp only []
      rw [ih ((w, spell w ELEMENTS) :: cache)]
      intro k v hk
      by_cases hkw : w = k
      · subst hkw
        simp [cache_lookup] at hk
        exact hk.symm
      · simp [cache_lookup, hkw] at hk
        exact hc k v hk

/-! ## Small utilities about the graph structure -/

theorem mem_insertPC {l : List (Option Node × Node)}
    {e x : Option Node × Node} :
    x ∈ insertPC l e ↔ x = e ∨ x ∈ l := by
  unfold insertPC
  by_cases h : e ∈ l
  · simp only [if_pos h]
    constructor
    · exact fun hx => Or.inr hx
    · rintro (rfl | hx)
      · exact h
      · exact hx
  · simp [if_neg h, List.mem_cons]

theorem subset_insertPC {l : List (Option Node × Node)}
    {e : Option Node × Node} : l ⊆ insertPC l e := by
  intro x hx
  exact mem_insertPC.mpr (Or.inr hx)

theorem nodup_insertPC {l : List (Option Node × Node)}
    {e : Option Node × Node} (h : l.Nodup) : (insertPC l e).Nodup := by
  unfold insertPC
  by_cases he : e ∈ l
  · simpa [if_pos he] using h
  · simpa [if_neg he, List.nodup_cons] using ⟨he, h⟩

theorem add_edge_children (g : Graph) (par ch : Option Node) :
    (g.add_edge par ch).children_of =
      match ch with
      | none => g.children_of
      | some c => insertPC g.children_of (par, c) := by
  cases par <;> cases ch <;> rfl

theorem add_edge_parents (g : Graph) (par ch : Option Node) :
    (g.add_edge par ch).parents_of =
      match par with
      | none => g.parents_of
      | some q => insertPC g.parents_of (ch, q) := by
  cases par <;> cases ch <;> rfl

theorem graphLE_refl (g : Graph) : graphLE g g :=
  ⟨fun _ h => h, fun _ h => h⟩

theorem graphLE_trans {g1 g2 g3 : Graph} (h1 : graphLE g1 g2)
    (h2 : graphLE g2 g3) : graphLE g1 g3 :=
  ⟨fun _ h => h2.1 (h1.1 h), fun _ h => h2.2 (h1.2 h)⟩

theorem graphLE_add_edge (g : Graph) (par ch : Option Node) :
    graphLE g (g.add_edge par ch) := by
  constructor
  · intro x hx
    rw [add_edge_children]
    cases ch
    · exact hx
    · exact subset_insertPC hx
  · intro x hx
    rw [add_edge_parents]
    cases par
    · exact hx
    · exact subset_insertPC hx

theorem tokDone_mono {word : List Char} {symbols : List (List Char)}
    {g g' : Graph} {t : Node} (hle : graphLE g g')
    (h : tokDone word symbols g t) : tokDone word symbols g' t := by
  refine ⟨fun u hu hpos => ?_, fun hend => hle.2 (h.2 hend)⟩
  obtain ⟨h1, h2⟩ := h.1 u hu hpos
  exact ⟨hle.1 h1, hle.2 h2⟩

theorem localExpanded_mono {word : List Char} {symbols : List (List Char)}
    {g g' : Graph} {p : Nat} (hle : graphLE g g')
    (h : localExpanded word symbols g p) : localExpanded word symbols g' p :=
  fun t ht hpos => tokDone_mono hle (h t ht hpos)

theorem expandedFrom_mono {word : List Char} {symbols : List (List Char)}
    {g g' : Graph} {p : Nat} (hle : graphLE g g')
    (h : expandedFrom word symbols g p) : expandedFrom word symbols g' p :=
  fun q hq => localExpanded_mono hle (h q hq)

/-! ## Reachability and token facts -/

theorem reachFrom_trans {word : List Char} {symbols : List (List Char)}
    {a b c : Nat} (h1 : reachFrom word symbols a b)
    (h2 : reachFrom word symbols b c) : reachFrom word symbols a c := by
  induction h1 with
  | refl _ => exact h2
  | step p t q ht hv _ ih => exact reachFrom.step p t c ht hv (ih h2)

theorem reachFrom_single {word : List Char} {symbols : List (List Char)}
    {t : Node} (hv : validTok word symbols t) :
    reachFrom word symbols t.position (t.position + t.value.length) :=
  reachFrom.step t.position t _ rfl hv (reachFrom.refl _)

theorem reachPos_extend {word : List Char} {symbols : List (List Char)}
    {p : Nat} {t : Node} (h : reachPos word symbols p)
    (ht : t.position = p) (hv : validTok word symbols t) :
    reachPos word symbols (p + t.value.length) := by
  refine reachFrom_trans h ?_
  subst ht
  exact reachFrom_single hv

theorem validTok_pos_lt {word : List Char} {symbols : List (List Char)}
    {t : Node} (h : validTok word symbols t) :
    t.position < word.length := by
  obtain ⟨hk, hle, _, _⟩ := h
  rcases hk with hk | hk <;> omega

theorem expandedFrom_step {word : List Char} {symbols : List (List Char)}
    {g : Graph} {p : Nat} {t : Node}
    (h : expandedFrom word symbols g p) (ht : t.position = p)
    (hv : validTok word symbols t) :
    expandedFrom word symbols g (p + t.value.length) := by
  intro q hq
  refine h q ?_
  subst ht
  exact reachFrom_trans (reachFrom_single hv) hq

/-! ## Suffix bookkeeping -/

theorem drop_length_eq {word rem : List Char} {p : Nat}
    (h : rem = word.drop p) : rem.length = word.length - p := by
  subst h
  exact List.length_drop p word

theorem drop_pos_inj {word : List Char} {p p' : Nat}
    (hp : p ≤ word.length) (hp' : p' ≤ word.length)
    (h : word.drop p = word.drop p') : p = p' := by
  have h1 : (word.drop p).length = word.length - p := List.length_drop p word
  have h2 : (word.drop p').length = word.length - p' :=
    List.length_drop p' word
  rw [h] at h1
  omega

theorem drop_cons_next {word : List Char} {p : Nat} {c : Char}
    {rest : List Char} (h : word.drop p = c :: rest) :
    word.drop (p + 1) = rest := by
  have : word.drop (p + 1) = (word.drop p).drop 1 := by
    rw [List.drop_drop]
  rw [this, h]
  rfl

theorem drop_cons_lt {word : List Char} {p : Nat} {c : Char}
    {rest : List Char} (h : word.drop p = c :: rest) : p < word.length := by
  have h1 : (word.drop p).length = word.length - p := List.length_drop p word
  rw [h] at h1
  simp only [List.length_cons] at h1
  omega

theorem validTok_single {word : List Char} {symbols : List (List Char)}
    {p : Nat} {c : Char} {rest : List Char} (h : word.drop p = c :: rest)
    (hs : capitalize [c] ∈ symbols) :
    validTok word symbols ⟨[c], p⟩ := by
  refine ⟨Or.inl rfl, ?_, ?_, hs⟩
  · have := drop_cons_lt h
    simpa using this
  · simp [h]

theorem validTok_double {word : List Char} {symbols : List (List Char)}
    {p : Nat} {c d : Char} {rest2 : List Char}
    (h : word.drop p = c :: d :: rest2)
    (hs : capitalize [c, d] ∈ symbols) :
    validTok word symbols ⟨[c, d], p⟩ := by
  refine ⟨Or.inr rfl, ?_, ?_, hs⟩
  · have h1 : (word.drop p).length = word.length - p := List.length_drop p word
    rw [h] at h1
    simp only [List.length_cons] at h1
    show p + 2 ≤ word.length
    omega
  · simp [h]

/-- The only possible valid tokens at offset `p` are the 1-character and the
2-character slices starting there. -/
theorem validTok_cases {word : List Char} {symbols : List (List Char)}
    {p : Nat} {t : Node} (hv : validTok word symbols t)
    (hpos : t.position = p) :
    (∃ c rest, word.drop p = c :: rest ∧ t = ⟨[c], p⟩ ∧
        capitalize [c] ∈ symbols) ∨
      (∃ c d rest2, word.drop p = c :: d :: rest2 ∧ t = ⟨[c, d], p⟩ ∧
        capitalize [c, d] ∈ symbols) := by
  obtain ⟨hk, hle, hval, hsym⟩ := hv
  subst hpos
  have hlen : (word.drop t.position).length = word.length - t.position :=
    List.length_drop t.position word
  rcases hk with hk | hk
  · left
    obtain ⟨c, rest, hdrop⟩ : ∃ c rest, word.drop t.position = c :: rest := by
      cases hrem : word.drop t.position with
      | nil => rw [hrem] at hlen; simp at hlen; omega
      | cons c rest => exact ⟨c, rest, rfl⟩
    refine ⟨c, rest, hdrop, ?_, ?_⟩
    · have hvt : t.value = [c] := by
        rw [hval, hk, hdrop]
        rfl
      cases t
      simp_all
    · have hvt : t.value = [c] := by
        rw [hval, hk, hdrop]
        rfl
      rwa [hvt] at hsym
  · right
    obtain ⟨c, d, rest2, hdrop⟩ :
        ∃ c d rest2, word.drop t.position = c :: d :: rest2 := by
      cases hrem : word.drop t.position with
      | nil => rw [hrem] at hlen; simp at hlen; omega
      | cons c rest =>
        cases rest with
        | nil =>
          rw [hrem] at hlen
          simp at hlen
          omega
        | cons d rest2 => exact ⟨c, d, rest2, rfl⟩
    refine ⟨c, d, rest2, hdrop, ?_, ?_⟩
    · have hvt : t.value = [c, d] := by
        rw [hval, hk, hdrop]
        rfl
      cases t
      simp_all
    · have hvt : t.value = [c, d] := by
        rw [hval, hk, hdrop]
        rfl
      rwa [hvt] at hsym

/-! ## Evaluation lemmas for `pop_root` -/

theorem pop_root_nil (symbols : List (List Char)) (p : Nat)
    (prev : Option Node) (g : Graph) (pr : List (List Char)) :
    pop_root symbols [] p prev (g, pr) = (g.add_edge prev none, pr) := rfl

theorem pop_root_cons_one (symbols : List (List Char)) (c : Char) (p : Nat)
    (prev : Option Node) (g : Graph) (pr : List (List Char)) :
    pop_root symbols [c] p prev (g, pr) =
      (let st1 :=
        if capitalize [c] ∈ symbols then
          branchStep symbols [c] [] p prev ⟨[c], p⟩ (g, pr)
        else (g, pr)
      (st1.1, [c] :: st1.2)) := rfl

theorem pop_root_cons_two (symbols : List (List Char)) (c d : Char)
    (rest2 : List Char) (p : Nat) (prev : Option Node) (g : Graph)
    (pr : List (List Char)) :
    pop_root symbols (c :: d :: rest2) p prev (g, pr) =
      (let st1 :=
        if capitalize [c] ∈ symbols then
          branchStep symbols (c :: d :: rest2) (d :: rest2) p prev ⟨[c], p⟩
            (g, pr)
        else (g, pr)
      let st2 :=
        if capitalize [c, d] ∈ symbols then
          branchStep symbols (c :: d :: rest2) rest2 p prev ⟨[c, d], p⟩ st1
        else st1
      (st2.1, (c :: d :: rest2) :: st2.2)) := rfl

/-! ## Invariant helpers -/

theorem childEntrySpec_mk {word : List Char} {symbols : List (List Char)}
    {p : Nat} {prev : Option Node} {root : Node}
    (hroot : validTok word symbols root) (hrootpos : root.position = p)
    (hnone : prev = none → p = 0)
    (hsome : ∀ q, prev = some q → validTok word symbols q ∧
      reachPos word symbols q.position ∧ q.position + q.value.length = p) :
    childEntrySpec word symbols (prev, root) := by
  cases prev with
  | none => exact ⟨hroot, hrootpos.trans (hnone rfl)⟩
  | some q =>
    obtain ⟨hq1, hq2, hq3⟩ := hsome q rfl
    exact ⟨hroot, hq1, hq2, by rw [hrootpos, hq3]⟩

theorem parentEntrySpec_mk {word : List Char} {symbols : List (List Char)}
    {p : Nat} {root : Node} {q : Node}
    (hroot : validTok word symbols root) (hrootpos : root.position = p)
    (hq : validTok word symbols q ∧ reachPos word symbols q.position ∧
      q.position + q.value.length = p) :
    parentEntrySpec word symbols (some root, q) :=
  ⟨hq.1, hq.2.1, hroot, by rw [hrootpos, hq.2.2]⟩

theorem StateOK_add_edge {word : List Char} {symbols : List (List Char)}
    {g : Graph} {pr : List (List Char)}
    (hok : StateOK word symbols (g, pr)) (par ch : Option Node)
    (hch : ∀ c, ch = some c → childEntrySpec word symbols (par, c))
    (hpar : ∀ q, par = some q → parentEntrySpec word symbols (ch, q)) :
    StateOK word symbols (g.add_edge par ch, pr) := by
  refine ⟨?_, ?_, ?_, ?_, ?_⟩
  · intro e he
    rw [add_edge_children] at he
    cases ch with
    | none => exact hok.child e he
    | some c =>
      rcases mem_insertPC.mp he with rfl | he
      · exact hch c rfl
      · exact hok.child e he
  · intro e he
    rw [add_edge_parents] at he
    cases par with
    | none => exact hok.parent e he
    | some q =>
      rcases mem_insertPC.mp he with rfl | he
      · exact hpar q rfl
      · exact hok.parent e he
  · rw [add_edge_children]
    cases ch with
    | none => exact hok.cnodup
    | some c => exact nodup_insertPC hok.cnodup
  · rw [add_edge_parents]
    cases par with
    | none => exact hok.pnodup
    | some q => exact nodup_insertPC hok.pnodup
  · intro r hr
    obtain ⟨p', h1, h2, h3, h4, h5⟩ := hok.proc r hr
    exact ⟨p', h1, h2, h3, h4,
      expandedFrom_mono (graphLE_add_edge g par ch) h5⟩

theorem processed_expanded {word : List Char} {symbols : List (List Char)}
    {g : Graph} {pr : List (List Char)} {rem : List Char} {p : Nat}
    (hok : StateOK word symbols (g, pr)) (hmem : rem ∈ pr)
    (hrem : rem = word.drop p) (hp : p ≤ word.length) :
    expandedFrom word symbols g p := by
  obtain ⟨p', hp', hdrop, _, _, hexp⟩ := hok.proc rem hmem
  have : p = p' := drop_pos_inj hp hp' (by rw [← hrem, hdrop])
  subst this
  exact hexp

/-! ## The master induction for `pop_root` -/

theorem reachFrom_cases {word : List Char} {symbols : List (List Char)}
    {p q : Nat} (h : reachFrom word symbols p q) :
    q = p ∨ ∃ t : Node, t.position = p ∧ validTok word symbols t ∧
      reachFrom word symbols (p + t.value.length) q := by
  cases h with
  | refl => exact Or.inl rfl
  | step p' t q' ht hv hrest => exact Or.inr ⟨t, ht, hv, hrest⟩

theorem reachFrom_ge {word : List Char} {symbols : List (List Char)}
    {a b : Nat} (h : reachFrom word symbols a b) : a ≤ b := by
  induction h with
  | refl _ => exact Nat.le_refl _
  | step p t q ht hv hrest ih => omega

theorem branchStep_post (word : List Char) (symbols : List (List Char))
    (rem rem' : List Char) (p : Nat) (prev : Option Node) (root : Node)
    (st : Graph × List (List Char))
    (hrem : rem = word.drop p) (hp : p ≤ word.length)
    (hnone : prev = none → p = 0)
    (hsome : ∀ q, prev = some q → validTok word symbols q ∧
      reachPos word symbols q.position ∧ q.position + q.value.length = p)
    (hreach : reachPos word symbols p)
    (hok : StateOK word symbols st)
    (hroot : validTok word symbols root) (hrootpos : root.position = p)
    (hrem' : rem' = word.drop (p + root.value.length))
    (hlt : rem'.length < rem.length)
    (REC : ∀ rem2 p2 prev2 st2, rem2.length < rem.length →
      rem2 = word.drop p2 → p2 ≤ word.length →
      (prev2 = none → p2 = 0) →
      (∀ q, prev2 = some q → validTok word symbols q ∧
        reachPos word symbols q.position ∧
        q.position + q.value.length = p2) →
      reachPos word symbols p2 → StateOK word symbols st2 →
      PopPost word symbols rem2 p2 prev2 st2
        (pop_root symbols rem2 p2 prev2 st2)) :
    BranchPost word symbols rem p prev root st
      (branchStep symbols rem rem' p prev root st) := by
  obtain ⟨g, pr⟩ := st
  have hok1 : StateOK word symbols (g.add_edge prev (some root), pr) :=
    StateOK_add_edge hok prev (some root)
      (fun c hc => by
        injection hc with h
        subst h
        exact childEntrySpec_mk hroot hrootpos hnone hsome)
      (fun q hq => parentEntrySpec_mk hroot hrootpos (hsome q hq))
  have hp2 : p + root.value.length ≤ word.length := by
    have h := hroot.2.1
    rw [hrootpos] at h
    exact h
  unfold branchStep
  by_cases hmem : rem ∈ pr
  · rw [if_pos hmem]
    have hexp : expandedFrom word symbols g p :=
      processed_expanded hok hmem hrem hp
    have hdone : tokDone word symbols g root :=
      hexp p (reachFrom.refl p) root hroot hrootpos
    have hle1 : graphLE g (g.add_edge prev (some root)) :=
      graphLE_add_edge g prev (some root)
    refine ⟨hok1, hle1, fun r hr => hr, fun r hr => Or.inl hr,
      tokDone_mono hle1 hdone,
      expandedFrom_mono hle1 (expandedFrom_step hexp hrootpos hroot),
      ?_, ?_⟩
    · rw [add_edge_children]
      exact mem_insertPC.mpr (Or.inl rfl)
    · intro q hq
      subst hq
      rw [add_edge_parents]
      exact mem_insertPC.mpr (Or.inl rfl)
  · rw [if_neg hmem]
    have POST := REC rem' (p + root.value.length) (some root)
      (g.add_edge prev (some root), pr) hlt hrem' hp2
      (fun h => by cases h)
      (fun q hq => by
        injection hq with h
        subst h
        exact ⟨hroot, by rw [hrootpos]; exact hreach, by rw [hrootpos]⟩)
      (reachPos_extend hreach hrootpos hroot)
      hok1
    refine ⟨POST.ok,
      graphLE_trans (graphLE_add_edge g prev (some root)) POST.gmono,
      POST.prmono, ?_, ?_, POST.expanded, ?_, ?_⟩
    · intro r hr
      rcases POST.pradd r hr with h | ⟨h1, h2⟩
      · exact Or.inl h
      · exact Or.inr ⟨h1, lt_of_le_of_lt h2 hlt⟩
    · constructor
      · intro u hu hupos
        rw [hrootpos] at hupos
        obtain ⟨h1, h2⟩ := POST.intoTok u hu hupos
        exact ⟨h1, h2 root rfl⟩
      · intro hend
        have hnil : rem' = [] := by
          rw [hrootpos] at hend
          rw [hrem', hend]
          exact List.drop_length word
        exact POST.endEdge hnil root rfl
    · refine POST.gmono.1 ?_
      rw [add_edge_children]
      exact mem_insertPC.mpr (Or.inl rfl)
    · intro q hq
      subst hq
      refine POST.gmono.2 ?_
      rw [add_edge_parents]
      exact mem_insertPC.mpr (Or.inl rfl)

theorem pop_root_post_nil (word : List Char) (symbols : List (List Char))
    (p : Nat) (prev : Option Node) (st : Graph × List (List Char))
    (hrem : ([] : List Char) = word.drop p) (hp : p ≤ word.length)
    (hsome : ∀ q, prev = some q → validTok word symbols q ∧
      reachPos word symbols q.position ∧ q.position + q.value.length = p)
    (hok : StateOK word symbols st) :
    PopPost word symbols [] p prev st (pop_root symbols [] p prev st) := by
  obtain ⟨g, pr⟩ := st
  rw [pop_root_nil]
  have hplen : p = word.length := by
    have h1 : ([] : List Char).length = word.length - p := drop_length_eq hrem
    simp only [List.length_nil] at h1
    omega
  have hok' : StateOK word symbols (g.add_edge prev none, pr) :=
    StateOK_add_edge hok prev none (fun c hc => by cases hc)
      (fun q hq => ⟨(hsome q hq).1, (hsome q hq).2.1, by
        have h := (hsome q hq).2.2
        show q.position + q.value.length = word.length
        omega⟩)
  refine ⟨hok', graphLE_add_edge g prev none, fun r hr => hr,
    fun r hr => Or.inl hr, fun h => absurd rfl h, ?_, ?_, ?_⟩
  · intro q hq t ht htpos
    exfalso
    have hlt := validTok_pos_lt ht
    have hge := reachFrom_ge hq
    omega
  · intro _ q hq
    subst hq
    rw [add_edge_parents]
    exact mem_insertPC.mpr (Or.inl rfl)
  · intro t ht htpos
    exfalso
    have := validTok_pos_lt ht
    omega

theorem assemble (word : List Char) (symbols : List (List Char))
    (c : Char) (rest : List Char) (p : Nat) (prev : Option Node)
    (st stD : Graph × List (List Char))
    (hrem : (c :: rest) = word.drop p) (hp : p ≤ word.length)
    (hreach : reachPos word symbols p)
    (okD : StateOK word symbols stD)
    (gmonoD : graphLE st.1 stD.1) (prmonoD : st.2 ⊆ stD.2)
    (praddD : ∀ r ∈ stD.2, r ∈ st.2 ∨
      (r ≠ [] ∧ r.length < (c :: rest).length))
    (hsingle : capitalize [c] ∈ symbols →
      tokDone word symbols stD.1 ⟨[c], p⟩ ∧
      expandedFrom word symbols stD.1 (p + 1) ∧
      (prev, (⟨[c], p⟩ : Node)) ∈ stD.1.children_of ∧
      (∀ q, prev = some q → (some ⟨[c], p⟩, q) ∈ stD.1.parents_of))
    (hdouble : ∀ d rest2, rest = d :: rest2 → capitalize [c, d] ∈ symbols →
      tokDone word symbols stD.1 ⟨[c, d], p⟩ ∧
      expandedFrom word symbols stD.1 (p + 2) ∧
      (prev, (⟨[c, d], p⟩ : Node)) ∈ stD.1.children_of ∧
      (∀ q, prev = some q → (some ⟨[c, d], p⟩, q) ∈ stD.1.parents_of)) :
    PopPost word symbols (c :: rest) p prev st
      (stD.1, (c :: rest) :: stD.2) := by
  have EXP : expandedFrom word symbols stD.1 p := by
    intro q hq
    rcases reachFrom_cases hq with rfl | ⟨t, htpos, hv, hrest⟩
    · intro t ht htpos
      rcases validTok_cases ht htpos with
        ⟨c', rest', hdrop, heq, hsym⟩ | ⟨c', d', rest2', hdrop, heq, hsym⟩
      · rw [← hrem] at hdrop
        injection hdrop with h1 h2
        subst h1
        subst heq
        exact (hsingle hsym).1
      · rw [← hrem] at hdrop
        injection hdrop with h1 h2
        subst h1
        subst h2
        subst heq
        exact (hdouble d' rest2' rfl hsym).1
    · rcases validTok_cases hv htpos with
        ⟨c', rest', hdrop, heq, hsym⟩ | ⟨c', d', rest2', hdrop, heq, hsym⟩
      · rw [← hrem] at hdrop
        injection hdrop with h1 h2
        subst h1
        subst heq
        exact (hsingle hsym).2.1 q hrest
      · rw [← hrem] at hdrop
        injection hdrop with h1 h2
        subst h1
        subst h2
        subst heq
        exact (hdouble d' rest2' rfl hsym).2.1 q hrest
  refine ⟨⟨okD.child, okD.parent, okD.cnodup, okD.pnodup, ?_⟩, gmonoD,
    ?_, ?_, fun _ => List.mem_cons_self _ _, EXP,
    fun h => (List.cons_ne_nil c rest h).elim, ?_⟩
  · intro r hr
    rcases List.mem_cons.mp hr with rfl | hr
    · exact ⟨p, hp, hrem, List.cons_ne_nil c rest, hreach, EXP⟩
    · exact okD.proc r hr
  · exact fun r hr => List.mem_cons_of_mem _ (prmonoD hr)
  · intro r hr
    rcases List.mem_cons.mp hr with rfl | hr
    · exact Or.inr ⟨List.cons_ne_nil c rest, Nat.le_refl _⟩
    · rcases praddD r hr with h | ⟨h1, h2⟩
      · exact Or.inl h
      · exact Or.inr ⟨h1, Nat.le_of_lt h2⟩
  · intro t ht htpos
    rcases validTok_cases ht htpos with
      ⟨c', rest', hdrop, heq, hsym⟩ | ⟨c', d', rest2', hdrop, heq, hsym⟩
    · rw [← hrem] at hdrop
      injection hdrop with h1 h2
      subst h1
      subst heq
      exact ⟨(hsingle hsym).2.2.1, (hsingle hsym).2.2.2⟩
    · rw [← hrem] at hdrop
      injection hdrop with h1 h2
      subst h1
      subst h2
      subst heq
      exact ⟨(hdouble d' rest2' rfl hsym).2.2.1,
        (hdouble d' rest2' rfl hsym).2.2.2⟩

theorem pop_root_master (word : List Char) (symbols : List (List Char)) :
    ∀ (n : Nat) (rem : List Char) (p : Nat) (prev : Option Node)
      (st : Graph × List (List Char)),
      rem.length ≤ n → rem = word.drop p → p ≤ word.length →
      (prev = none → p = 0) →
      (∀ q, prev = some q → validTok word symbols q ∧
        reachPos word symbols q.position ∧ q.position + q.value.length = p) →
      reachPos word symbols p → StateOK word symbols st →
      PopPost word symbols rem p prev st (pop_root symbols rem p prev st) := by
  intro n
  induction n with
  | zero =>
    intro rem p prev st hn hrem hp hnone hsome hreach hok
    have hnil : rem = [] := List.eq_nil_of_length_eq_zero (Nat.le_zero.mp hn)
    subst hnil
    exact pop_root_post_nil word symbols p prev st hrem hp hsome hok
  | succ n ih =>
    intro rem p prev st hn hrem hp hnone hsome hreach hok
    cases rem with
    | nil => exact pop_root_post_nil word symbols p prev st hrem hp hsome hok
    | cons c rest =>
      have REC : ∀ rem2 p2 prev2 st2, rem2.length < (c :: rest).length →
          rem2 = word.drop p2 → p2 ≤ word.length →
          (prev2 = none → p2 = 0) →
          (∀ q, prev2 = some q → validTok word symbols q ∧
            reachPos word symbols q.position ∧
            q.position + q.value.length = p2) →
          reachPos word symbols p2 → StateOK word symbols st2 →
          PopPost word symbols rem2 p2 prev2 st2
            (pop_root symbols rem2 p2 prev2 st2) := by
        intro rem2 p2 prev2 st2 hlt2 h1 h2 h3 h4 h5 h6
        have hle : rem2.length ≤ n := by
          simp only [List.length_cons] at hlt2 hn
          omega
        exact ih rem2 p2 prev2 st2 hle h1 h2 h3 h4 h5 h6
      obtain ⟨g, pr⟩ := st
      cases rest with
      | nil =>
        rw [pop_root_cons_one]
        by_cases hs : capitalize [c] ∈ symbols
        · simp only [if_pos hs]
          have hroot : validTok word symbols ⟨[c], p⟩ :=
            validTok_single hrem.symm hs
          have hB := branchStep_post word symbols [c] [] p prev ⟨[c], p⟩
            (g, pr) hrem hp hnone hsome hreach hok hroot rfl
            (drop_cons_next hrem.symm).symm (by simp) REC
          refine assemble word symbols c [] p prev (g, pr) _ hrem hp hreach
            hB.ok hB.gmono hB.prmono hB.pradd ?_ ?_
          · intro _
            exact ⟨hB.rootDone, hB.nextExp, hB.inEdge, hB.inEdgeP⟩
          · intro d rest2 hcontra
            cases hcontra
        · simp only [if_neg hs]
          refine assemble word symbols c [] p prev (g, pr) (g, pr) hrem hp
            hreach hok (graphLE_refl g) (fun r hr => hr)
            (fun r hr => Or.inl hr) ?_ ?_
          · intro hs'
            exact absurd hs' hs
          · intro d rest2 hcontra
            cases hcontra
      | cons d rest2 =>
        rw [pop_root_cons_two]
        have e1 : word.drop (p + 1) = d :: rest2 := drop_cons_next hrem.symm
        have e2 : word.drop (p + 2) = rest2 := drop_cons_next e1
        by_cases hs1 : capitalize [c] ∈ symbols
        · simp only [if_pos hs1]
          have hroot1 : validTok word symbols ⟨[c], p⟩ :=
            validTok_single hrem.symm hs1
          have hB1 := branchStep_post word symbols (c :: d :: rest2)
            (d :: rest2) p prev ⟨[c], p⟩ (g, pr) hrem hp hnone hsome hreach
            hok hroot1 rfl e1.symm (by simp) REC
          by_cases hs2 : capitalize [c, d] ∈ symbols
          · simp only [if_pos hs2]
            have hroot2 : validTok word symbols ⟨[c, d], p⟩ :=
              validTok_double hrem.symm hs2
            have hB2 := branchStep_post word symbols (c :: d :: rest2) rest2
              p prev ⟨[c, d], p⟩
              (branchStep symbols (c :: d :: rest2) (d :: rest2) p prev
                ⟨[c], p⟩ (g, pr))
              hrem hp hnone hsome hreach hB1.ok hroot2 rfl e2.symm
              (by simp only [List.length_cons]; omega) REC
            refine assemble word symbols c (d :: rest2) p prev (g, pr) _
              hrem hp hreach hB2.ok (graphLE_trans hB1.gmono hB2.gmono)
              (fun r hr => hB2.prmono (hB1.prmono hr)) ?_ ?_ ?_
            · intro r hr
              rcases hB2.pradd r hr with h | h
              · exact hB1.pradd r h
              · exact Or.inr h
            · intro _
              exact ⟨tokDone_mono hB2.gmono hB1.rootDone,
                expandedFrom_mono hB2.gmono hB1.nextExp,
                hB2.gmono.1 hB1.inEdge,
                fun q hq => hB2.gmono.2 (hB1.inEdgeP q hq)⟩
            · intro d0 rest20 heq hsym0
              injection heq with h1 h2
              subst h1
              subst h2
              exact ⟨hB2.rootDone, hB2.nextExp, hB2.inEdge, hB2.inEdgeP⟩
          · simp only [if_neg hs2]
            refine assemble word symbols c (d :: rest2) p prev (g, pr) _
              hrem hp hreach hB1.ok hB1.gmono hB1.prmono hB1.pradd ?_ ?_
            · intro _
              exact ⟨hB1.rootDone, hB1.nextExp, hB1.inEdge, hB1.inEdgeP⟩
            · intro d0 rest20 heq hsym0
              injection heq with h1 h2
              subst h1
              subst h2
              exact absurd hsym0 hs2
        · simp only [if_neg hs1]
          by_cases hs2 : capitalize [c, d] ∈ symbols
          · simp only [if_pos hs2]
            have hroot2 : validTok word symbols ⟨[c, d], p⟩ :=
              validTok_double hrem.symm hs2
            have hB2 := branchStep_post word symbols (c :: d :: rest2) rest2
              p prev ⟨[c, d], p⟩ (g, pr) hrem hp hnone hsome hreach hok
              hroot2 rfl e2.symm (by simp only [List.length_cons]; omega) REC
            refine assemble word symbols c (d :: rest2) p prev (g, pr) _
              hrem hp hreach hB2.ok hB2.gmono hB2.prmono hB2.pradd ?_ ?_
            · intro hs'
              exact absurd hs' hs1
            · intro d0 rest20 heq hsym0
              injection heq with h1 h2
              subst h1
              subst h2
              exact ⟨hB2.rootDone, hB2.nextExp, hB2.inEdge, hB2.inEdgeP⟩
          · simp only [if_neg hs2]
            refine assemble word symbols c (d :: rest2) p prev (g, pr)
              (g, pr) hrem hp hreach hok (graphLE_refl g) (fun r hr => hr)
              (fun r hr => Or.inl hr) ?_ ?_
            · intro hs'
              exact absurd hs' hs1
            · intro d0 rest20 heq hsym0
              injection heq with h1 h2
              subst h1
              subst h2
              exact absurd hsym0 hs2

/-! ## Claim theorems (easy group) -/

/-- C3: `spell("amputation")` over the 118-symbol table contains both
`("Am","Pu","Ta","Ti","O","N")` and `("Am","P","U","Ta","Ti","O","N")`, the
former sorted ahead of the latter. -/
theorem claim_C3 :
    (["Am", "Pu", "Ta", "Ti", "O", "N"].map String.toList) ∈
        spell "amputation".toList ELEMENTS ∧
      (["Am", "P", "U", "Ta", "Ti", "O", "N"].map String.toList) ∈
        spell "amputation".toList ELEMENTS ∧
      List.indexOf (["Am", "Pu", "Ta", "Ti", "O", "N"].map String.toList)
          (spell "amputation".toList ELEMENTS) <
        List.indexOf (["Am", "P", "U", "Ta", "Ti", "O", "N"].map String.toList)
          (spell "amputation".toList ELEMENTS) := by
  decide

/-- C4: digits are stripped before graph construction and never cause
rejection: `spell w` equals `spell` of the word with all digits removed; in
particular `spell "h2"` equals `spell "h"` (the symbol set in effect
contains `"H"`). -/
theorem claim_C4 :
    (∀ (w : List Char) (s : List (List Char)),
        spell w s = spell (stripDigits w) s) ∧
      spell "h2".toList ELEMENTS = spell "h".toList ELEMENTS := by
  constructor
  · intro w s
    simp only [spell, stripDigits_idem]
  · decide

/-- C8: queries run through the `functools.cache` of `spell` always return
the value of the pure function: calling `spell` twice with the same word
gives value-equal results, and repeated or interleaved queries for distinct
words never change each other's results. -/
theorem claim_C8 (ws : List (List Char)) :
    run_queries [] ws = ws.map (fun w => spell w ELEMENTS) :=
  run_queries_spec ws [] (by intro k v h; simp [cache_lookup] at h)

/-- C9: a word that is empty after digit stripping produces zero spellings
(`[]`), not a trivial empty spelling: the `(None, None)` start-to-end edge
is discarded by `add_edge`, so the graph has no firsts and no lasts. -/
theorem claim_C9 (w : List Char) (s : List (List Char))
    (h : stripDigits w = []) : spell w s = [] := by
  simp only [spell, h]
  rfl

theorem claim_C9_witness :
    stripDigits "123".toList = [] ∧ spell "123".toList ELEMENTS = [] :=
  ⟨by decide, claim_C9 "123".toList ELEMENTS (by decide)⟩

/-- C10: a formula whose linear scan extracts an element symbol that is not
a key of the table (`'H'`, `'Li'`, `'Be'`) makes
`calculate_relative_molecular_mass` fail as a whole with the propagated
`KeyError` (modelled as `none`) — unknown elements are not skipped — while
`get_relative_atomic_mass` returns `0` for an unknown element. -/
theorem claim_C10 (f : List Char) :
    (calculate_relative_molecular_mass f = none ↔
        ∃ e ∈ scanned_elements f, tableLookup mendeleev_table e = none) ∧
      ∀ el, tableLookup mendeleev_table el = none →
        get_relative_atomic_mass el = 0 :=
  ⟨calc_loop_eq_none_iff f, fun el h => get_ram_of_lookup_none el h⟩

theorem claim_C10_witness :
    calculate_relative_molecular_mass "C".toList = none ∧
      get_relative_atomic_mass "C".toList = 0 :=
  ⟨(claim_C10 "C".toList).1.mpr ⟨['C'], by decide, by decide⟩,
    (claim_C10 []).2 "C".toList (by decide)⟩

/-! ## Exact characterization of the built graph -/

theorem build_master (word : List Char) (symbols : List (List Char)) :
    PopPost word symbols word 0 none (⟨[], []⟩, [])
      (pop_root symbols word 0 none (⟨[], []⟩, [])) := by
  refine pop_root_master word symbols word.length word 0 none (⟨[], []⟩, [])
    (Nat.le_refl _) (List.drop_zero word).symm (Nat.zero_le _)
    (fun _ => rfl) (fun q hq => by cases hq) (reachFrom.refl 0) ?_
  exact ⟨fun e he => absurd he (List.not_mem_nil e),
    fun e he => absurd he (List.not_mem_nil e), List.nodup_nil,
    List.nodup_nil, fun r hr => absurd hr (List.not_mem_nil r)⟩

theorem build_children_iff (word : List Char) (symbols : List (List Char))
    (e : Option Node × Node) :
    e ∈ (build_spelling_graph word ⟨[], []⟩ symbols).children_of ↔
      childEntrySpec word symbols e := by
  have MAIN := build_master word symbols
  constructor
  · intro h
    exact MAIN.ok.child e h
  · intro h
    obtain ⟨par, t⟩ := e
    cases par with
    | none => exact (MAIN.intoTok t h.1 h.2).1
    | some q =>
      obtain ⟨hvt, hvq, hrq, hpos⟩ := h
      have hloc := MAIN.expanded q.position hrq q hvq rfl
      exact (hloc.1 t hvt hpos).1

theorem build_parents_iff (word : List Char) (symbols : List (List Char))
    (e : Option Node × Node) :
    e ∈ (build_spelling_graph word ⟨[], []⟩ symbols).parents_of ↔
      parentEntrySpec word symbols e := by
  have MAIN := build_master word symbols
  constructor
  · intro h
    exact MAIN.ok.parent e h
  · intro h
    obtain ⟨ck, q⟩ := e
    cases ck with
    | none =>
      obtain ⟨hvq, hrq, hend⟩ := h
      have hloc := MAIN.expanded q.position hrq q hvq rfl
      exact hloc.2 hend
    | some c =>
      obtain ⟨hvq, hrq, hvc, hpos⟩ := h
      have hloc := MAIN.expanded q.position hrq q hvq rfl
      exact (hloc.1 c hvc hpos).2

theorem build_children_nodup (word : List Char)
    (symbols : List (List Char)) :
    (build_spelling_graph word ⟨[], []⟩ symbols).children_of.Nodup :=
  (build_master word symbols).ok.cnodup

theorem build_parents_nodup (word : List Char)
    (symbols : List (List Char)) :
    (build_spelling_graph word ⟨[], []⟩ symbols).parents_of.Nodup :=
  (build_master word symbols).ok.pnodup

theorem mem_firsts {g : Graph} {t : Node} :
    t ∈ g.firsts ↔ (none, t) ∈ g.children_of := by
  unfold Graph.firsts
  constructor
  · intro h
    obtain ⟨e, he, het⟩ := List.mem_map.mp h
    obtain ⟨hmem, hcond⟩ := List.mem_filter.mp he
    obtain ⟨p1, t1⟩ := e
    have h1 : p1 = none := by
      simpa [Option.isNone_iff_eq_none] using hcond
    subst h1
    cases het
    exact hmem
  · intro h
    exact List.mem_map.mpr ⟨(none, t), List.mem_filter.mpr ⟨h, rfl⟩, rfl⟩

theorem mem_lasts {g : Graph} {t : Node} :
    t ∈ g.lasts ↔ (none, t) ∈ g.parents_of := by
  unfold Graph.lasts
  constructor
  · intro h
    obtain ⟨e, he, het⟩ := List.mem_map.mp h
    obtain ⟨hmem, hcond⟩ := List.mem_filter.mp he
    obtain ⟨p1, t1⟩ := e
    have h1 : p1 = none := by
      simpa [Option.isNone_iff_eq_none] using hcond
    subst h1
    cases het
    exact hmem
  · intro h
    exact List.mem_map.mpr ⟨(none, t), List.mem_filter.mpr ⟨h, rfl⟩, rfl⟩

theorem firsts_nodup {g : Graph} (h : g.children_of.Nodup) :
    g.firsts.Nodup := by
  unfold Graph.firsts
  refine (h.filter _).map_on ?_
  intro e1 h1 e2 h2 hsnd
  obtain ⟨a1, b1⟩ := e1
  obtain ⟨a2, b2⟩ := e2
  have ha1 : a1 = none := by
    simpa [Option.isNone_iff_eq_none] using (List.mem_filter.mp h1).2
  have ha2 : a2 = none := by
    simpa [Option.isNone_iff_eq_none] using (List.mem_filter.mp h2).2
  subst ha1
  subst ha2
  cases hsnd
  rfl

theorem lasts_nodup {g : Graph} (h : g.parents_of.Nodup) :
    g.lasts.Nodup := by
  unfold Graph.lasts
  refine (h.filter _).map_on ?_
  intro e1 h1 e2 h2 hsnd
  obtain ⟨a1, b1⟩ := e1
  obtain ⟨a2, b2⟩ := e2
  have ha1 : a1 = none := by
    simpa [Option.isNone_iff_eq_none] using (List.mem_filter.mp h1).2
  have ha2 : a2 = none := by
    simpa [Option.isNone_iff_eq_none] using (List.mem_filter.mp h2).2
  subst ha1
  subst ha2
  cases hsnd
  rfl

theorem length_le_two_of_pair {l : List Node} (hn : l.Nodup) (a b : Node)
    (h : ∀ x ∈ l, x = a ∨ x = b) : l.length ≤ 2 := by
  cases l with
  | nil => simp
  | cons x l1 =>
    cases l1 with
    | nil => simp
    | cons y l2 =>
      have hl2 : l2 = [] := by
        cases l2 with
        | nil => rfl
        | cons z l3 =>
          exfalso
          have hx := h x (by simp)
          have hy := h y (by simp)
          have hz := h z (by simp)
          have hxy : x ≠ y := by
            have := (List.nodup_cons.mp hn).1
            simp at this
            exact fun hxy => this.1 hxy
          have hxz : x ≠ z := by
            have := (List.nodup_cons.mp hn).1
            simp at this
            exact fun hxz => this.2.1 hxz
          have hyz : y ≠ z := by
            have := (List.nodup_cons.mp (List.nodup_cons.mp hn).2).1
            simp at this
            exact fun hyz => this.1 hyz
          rcases hx with rfl | rfl <;> rcases hy with rfl | rfl <;>
            rcases hz with rfl | rfl <;> simp_all
      subst hl2
      simp

/-- C6: the graph is acyclic: every edge between two Position Tokens goes
from a token at some offset to a token at a strictly greater offset (the
child starts where the parent's glyph ends), so no path revisits a node. -/
theorem claim_C6 (word : List Char) (symbols : List (List Char)) (q t : Node)
    (h : (some q, t) ∈
      (build_spelling_graph word ⟨[], []⟩ symbols).children_of) :
    q.position < t.position := by
  have hs := (build_children_iff word symbols (some q, t)).mp h
  obtain ⟨hvt, hvq, hr, hpos⟩ := hs
  have hpos' : t.position = q.position + q.value.length := hpos
  have hk : q.value.length = 1 ∨ q.value.length = 2 := hvq.1
  rcases hk with hk | hk <;> omega

theorem claim_C6_witness :
    (⟨['c'], 0⟩ : Node).position < (⟨['u'], 1⟩ : Node).position :=
  claim_C6 "cu".toList ELEMENTS ⟨['c'], 0⟩ ⟨['u'], 1⟩ (by decide)

/-- C7: after `build_spelling_graph` finishes the firsts number at most 2
(the 1- and 2-character prefixes) and the lasts number at most 2 (the 1- and
2-character suffixes). -/
theorem claim_C7 (word : List Char) (symbols : List (List Char)) :
    (build_spelling_graph word ⟨[], []⟩ symbols).firsts.length ≤ 2 ∧
      (build_spelling_graph word ⟨[], []⟩ symbols).lasts.length ≤ 2 := by
  constructor
  · refine length_le_two_of_pair
      (firsts_nodup (build_children_nodup word symbols))
      ⟨word.take 1, 0⟩ ⟨word.take 2, 0⟩ ?_
    intro t ht
    have hs := (build_children_iff word symbols (none, t)).mp
      (mem_firsts.mp ht)
    have hvt : validTok word symbols t := hs.1
    have hpos : t.position = 0 := hs.2
    rcases validTok_cases hvt hpos with
      ⟨c, rest, hdrop, heq, _⟩ | ⟨c, d, rest2, hdrop, heq, _⟩
    · left
      rw [List.drop_zero] at hdrop
      rw [heq, hdrop]
      rfl
    · right
      rw [List.drop_zero] at hdrop
      rw [heq, hdrop]
      rfl
  · refine length_le_two_of_pair
      (lasts_nodup (build_parents_nodup word symbols))
      ⟨(word.drop (word.length - 1)).take 1, word.length - 1⟩
      ⟨(word.drop (word.length - 2)).take 2, word.length - 2⟩ ?_
    intro t ht
    have hs := (build_parents_iff word symbols (none, t)).mp
      (mem_lasts.mp ht)
    have hvt : validTok word symbols t := hs.1
    have hend : t.position + t.value.length = word.length := hs.2.2
    obtain ⟨tv, tp⟩ := t
    rcases validTok_cases hvt rfl with
      ⟨c, rest, hdrop, heq, _⟩ | ⟨c, d, rest2, hdrop, heq, _⟩
    · left
      injection heq with hv1 _
      subst hv1
      simp only [List.length_cons, List.length_nil] at hend
      have hp1 : tp = word.length - 1 := by omega
      subst hp1
      rw [hdrop]
      rfl
    · right
      injection heq with hv1 _
      subst hv1
      simp only [List.length_cons, List.length_nil] at hend
      have hp2 : tp = word.length - 2 := by omega
      subst hp2
      rw [hdrop]
      rfl

/-! ## Path-enumeration lemmas -/

theorem mem_childrenOf {ptc : List (Option Node × Node)} {s n : Node} :
    n ∈ childrenOf ptc s ↔ (some s, n) ∈ ptc := by
  unfold childrenOf
  constructor
  · intro h
    obtain ⟨e, he, het⟩ := List.mem_map.mp h
    obtain ⟨hmem, hcond⟩ := List.mem_filter.mp he
    obtain ⟨p1, t1⟩ := e
    have h1 : p1 = some s := by simpa using hcond
    subst h1
    cases het
    exact hmem
  · intro h
    refine List.mem_map.mpr ⟨(some s, n), List.mem_filter.mpr ⟨h, ?_⟩, rfl⟩
    simp

theorem childrenOf_nodup {ptc : List (Option Node × Node)} {s : Node}
    (h : ptc.Nodup) : (childrenOf ptc s).Nodup := by
  unfold childrenOf
  refine (h.filter _).map_on ?_
  intro e1 h1 e2 h2 hsnd
  obtain ⟨a1, b1⟩ := e1
  obtain ⟨a2, b2⟩ := e2
  have ha1 : a1 = some s := by simpa using (List.mem_filter.mp h1).2
  have ha2 : a2 = some s := by simpa using (List.mem_filter.mp h2).2
  subst ha1
  subst ha2
  cases hsnd
  rfl

theorem find_all_paths_sound (ptc : List (Option Node × Node)) :
    ∀ (fuel : Nat) (start fin : Node) (acc : List Node)
      (res : List Node), start ∉ acc →
      res ∈ find_all_paths ptc fuel start fin acc →
      ∃ q, res = acc ++ q ∧ q ≠ [] ∧ q.head? = some start ∧
        q.getLast? = some fin ∧
        List.Chain' (fun a b => (some a, b) ∈ ptc) q ∧
        (∀ x ∈ q, x ∉ acc) ∧ q.Nodup := by
  intro fuel
  induction fuel with
  | zero =>
    intro start fin acc res hs hres
    simp [find_all_paths] at hres
  | succ fuel ih =>
    intro start fin acc res hs hres
    simp only [find_all_paths] at hres
    by_cases hsf : start = fin
    · subst hsf
      rw [if_pos rfl] at hres
      simp only [List.mem_singleton] at hres
      subst hres
      refine ⟨[start], rfl, by simp, rfl, rfl, List.chain'_singleton _,
        ?_, by simp⟩
      intro x hx
      simp only [List.mem_singleton] at hx
      subst hx
      exact hs
    · rw [if_neg hsf] at hres
      obtain ⟨n, hn, hres⟩ := List.mem_flatMap.mp hres
      obtain ⟨hnchild, hnpath⟩ := List.mem_filter.mp hn
      have hnp : n ∉ acc ++ [start] := by simpa using hnpath
      obtain ⟨q', heq, hq'ne, hhead, hlast, hchain, hnotin, hnodup⟩ :=
        ih n fin (acc ++ [start]) res hnp hres
      refine ⟨start :: q', by simpa using heq, by simp, rfl, ?_, ?_, ?_, ?_⟩
      · cases q' with
        | nil => exact absurd rfl hq'ne
        | cons y ys => simpa [List.getLast?_cons_cons] using hlast
      · refine List.chain'_cons'.mpr ⟨?_, hchain⟩
        intro b hb
        rw [hhead] at hb
        cases hb
        exact mem_childrenOf.mp hnchild
      · intro x hx
        rcases List.mem_cons.mp hx with rfl | hx
        · exact hs
        · have := hnotin x hx
          simp only [List.mem_append] at this
          exact fun hc => this (Or.inl hc)
      · refine List.nodup_cons.mpr ⟨?_, hnodup⟩
        intro hc
        have := hnotin start hc
        simp at this

theorem find_all_paths_complete (ptc : List (Option Node × Node)) :
    ∀ (q : List Node) (fuel : Nat) (start fin : Node) (acc : List Node),
      List.Chain' (fun a b => (some a, b) ∈ ptc) (start :: q) →
      (start :: q).getLast? = some fin →
      (start :: q).Nodup →
      (∀ x ∈ start :: q, x ∉ acc) →
      q.length + 1 ≤ fuel →
      (acc ++ start :: q) ∈ find_all_paths ptc fuel start fin acc := by
  intro q
  induction q with
  | nil =>
    intro fuel start fin acc hchain hlast hnodup hdis hfuel
    cases fuel with
    | zero => exact absurd hfuel (by omega)
    | succ fuel =>
      have hsf : start = fin := by simpa using hlast
      subst hsf
      simp [find_all_paths]
  | cons n q' ihq =>
    intro fuel start fin acc hchain hlast hnodup hdis hfuel
    cases fuel with
    | zero => exact absurd hfuel (by omega)
    | succ fuel =>
      have hfinmem : fin ∈ n :: q' := by
        rw [List.getLast?_cons_cons] at hlast
        exact List.mem_of_getLast?_eq_some hlast
      have hstartnot : start ∉ n :: q' := (List.nodup_cons.mp hnodup).1
      have hsf : start ≠ fin := fun h => hstartnot (h ▸ hfinmem)
      simp only [find_all_paths]
      rw [if_neg hsf]
      refine List.mem_flatMap.mpr ⟨n, ?_, ?_⟩
      · refine List.mem_filter.mpr ⟨?_, ?_⟩
        · exact mem_childrenOf.mpr (List.chain'_cons.mp hchain).1
        · have hna : n ∉ acc := hdis n (by simp)
          have hns : n ≠ start := by
            intro h
            exact hstartnot (h ▸ List.mem_cons_self n q')
          simp [hna, hns]
      · have hre : acc ++ start :: n :: q' = (acc ++ [start]) ++ n :: q' := by
          simp
        rw [hre]
        refine ihq fuel n fin (acc ++ [start])
          (List.chain'_cons.mp hchain).2
          (by rw [List.getLast?_cons_cons] at hlast; exact hlast)
          (List.nodup_cons.mp hnodup).2 ?_
          (by simp only [List.length_cons] at hfuel; omega)
        intro x hx
        simp only [List.mem_append, List.mem_singleton]
        rintro (hc | rfl)
        · exact hdis x (List.mem_cons_of_mem start hx) hc
        · exact hstartnot hx

theorem find_all_paths_nodup (ptc : List (Option Node × Node))
    (hptc : ptc.Nodup) :
    ∀ (fuel : Nat) (start fin : Node) (acc : List Node), start ∉ acc →
      (find_all_paths ptc fuel start fin acc).Nodup := by
  intro fuel
  induction fuel with
  | zero =>
    intro start fin acc hs
    simp [find_all_paths]
  | succ fuel ih =>
    intro start fin acc hs
    simp only [find_all_paths]
    by_cases hsf : start = fin
    · rw [if_pos hsf]
      simp
    · rw [if_neg hsf]
      refine List.nodup_flatMap.mpr ⟨?_, ?_⟩
      · intro n hn
        have hnp : n ∉ acc ++ [start] := by
          simpa using (List.mem_filter.mp hn).2
        exact ih n fin (acc ++ [start]) hnp
      · have hchildn : ((childrenOf ptc start).filter
            (fun n => decide (n ∉ acc ++ [start]))).Nodup :=
          (childrenOf_nodup hptc).filter _
        refine List.Pairwise.imp_of_mem ?_ hchildn
        intro a b ha hb hab
        intro res hra hrb
        have hap : a ∉ acc ++ [start] := by
          simpa using (List.mem_filter.mp ha).2
        have hbp : b ∉ acc ++ [start] := by
          simpa using (List.mem_filter.mp hb).2
        obtain ⟨qa, hqa, _, hha, _, _, _, _⟩ :=
          find_all_paths_sound ptc fuel a fin (acc ++ [start]) res hap hra
        obtain ⟨qb, hqb, _, hhb, _, _, _, _⟩ :=
          find_all_paths_sound ptc fuel b fin (acc ++ [start]) res hbp hrb
        have hq : qa = qb := List.append_cancel_left (hqa.symm.trans hqb)
        subst hq
        rw [hha] at hhb
        injection hhb with h
        exact hab h

/-! ## Segmentations: `specSegmentations` ↔ `IsSeg` -/

theorem capitalize_length (s : List Char) :
    (capitalize s).length = s.length := by
  cases s with
  | nil => rfl
  | cons c cs => simp [capitalize]

theorem IsSeg_glyphs {symbols : List (List Char)} :
    ∀ {w : List Char} {gs : List (List Char)}, IsSeg symbols w gs →
      ∀ g ∈ gs, (g.length = 1 ∨ g.length = 2) ∧ capitalize g ∈ symbols := by
  intro w gs h
  induction h with
  | nil => intro g hg; cases hg
  | one c w' gs' hs hseg ih =>
    intro g hg
    rcases List.mem_cons.mp hg with rfl | hg
    · exact ⟨Or.inl rfl, hs⟩
    · exact ih g hg
  | two c d w' gs' hs hseg ih =>
    intro g hg
    rcases List.mem_cons.mp hg with rfl | hg
    · exact ⟨Or.inr rfl, hs⟩
    · exact ih g hg

theorem IsSeg_nil_left {symbols : List (List Char)}
    {gs : List (List Char)} (h : IsSeg symbols [] gs) : gs = [] := by
  cases h
  rfl

theorem IsSeg_nil_right {symbols : List (List Char)} {w : List Char}
    (h : IsSeg symbols w []) : w = [] := by
  cases h
  rfl

theorem IsSeg_ne_nil {symbols : List (List Char)} {w : List Char}
    {gs : List (List Char)} (h : IsSeg symbols w gs) (hw : w ≠ []) :
    gs ≠ [] := by
  cases h with
  | nil => exact absurd rfl hw
  | one c w' gs' hs hseg => simp
  | two c d w' gs' hs hseg => simp

theorem seg_mem_spec {symbols : List (List Char)} :
    ∀ {w : List Char} {gs : List (List Char)}, IsSeg symbols w gs →
      gs.map capitalize ∈ specSegmentations symbols w := by
  intro w gs h
  induction h with
  | nil => simp [specSegmentations]
  | one c w' gs' hs hseg ih =>
    show capitalize [c] :: gs'.map capitalize ∈
      specSegmentations symbols (c :: w')
    cases w' with
    | nil =>
      have hgs : gs' = [] := IsSeg_nil_left hseg
      subst hgs
      simp [specSegmentations, hs]
    | cons d w2 =>
      refine List.mem_append.mpr (Or.inl ?_)
      rw [if_pos hs]
      exact List.mem_map.mpr ⟨gs'.map capitalize, ih, rfl⟩
  | two c d w' gs' hs hseg ih =>
    show capitalize [c, d] :: gs'.map capitalize ∈
      specSegmentations symbols (c :: d :: w')
    refine List.mem_append.mpr (Or.inr ?_)
    rw [if_pos hs]
    exact List.mem_map.mpr ⟨gs'.map capitalize, ih, rfl⟩

theorem spec_mem_seg {symbols : List (List Char)} :
    ∀ (n : Nat) (w : List Char), w.length ≤ n →
      ∀ ss ∈ specSegmentations symbols w,
        ∃ gs, IsSeg symbols w gs ∧ ss = gs.map capitalize := by
  intro n
  induction n with
  | zero =>
    intro w hw ss hss
    have hnil : w = [] := List.eq_nil_of_length_eq_zero (Nat.le_zero.mp hw)
    subst hnil
    simp only [specSegmentations, List.mem_singleton] at hss
    subst hss
    exact ⟨[], IsSeg.nil, rfl⟩
  | succ n ih =>
    intro w hw ss hss
    cases w with
    | nil =>
      simp only [specSegmentations, List.mem_singleton] at hss
      subst hss
      exact ⟨[], IsSeg.nil, rfl⟩
    | cons c rest =>
      cases rest with
      | nil =>
        simp only [specSegmentations, List.append_nil] at hss
        by_cases hs1 : capitalize [c] ∈ symbols
        · rw [if_pos hs1] at hss
          obtain ⟨ss', hss', rfl⟩ := List.mem_map.mp hss
          obtain ⟨gs', hseg, rfl⟩ := ih [] (by simp) ss' hss'
          exact ⟨[c] :: gs', IsSeg.one c [] gs' hs1 hseg, rfl⟩
        · rw [if_neg hs1] at hss
          cases hss
      | cons d rest2 =>
        simp only [specSegmentations] at hss
        rcases List.mem_append.mp hss with h1 | h2
        · by_cases hs1 : capitalize [c] ∈ symbols
          · rw [if_pos hs1] at h1
            obtain ⟨ss', hss', rfl⟩ := List.mem_map.mp h1
            obtain ⟨gs', hseg, rfl⟩ := ih (d :: rest2)
              (by simp only [List.length_cons] at hw ⊢; omega) ss' hss'
            exact ⟨[c] :: gs', IsSeg.one c (d :: rest2) gs' hs1 hseg, rfl⟩
          · rw [if_neg hs1] at h1
            cases h1
        · by_cases hs2 : capitalize [c, d] ∈ symbols
          · rw [if_pos hs2] at h2
            obtain ⟨ss', hss', rfl⟩ := List.mem_map.mp h2
            obtain ⟨gs', hseg, rfl⟩ := ih rest2
              (by simp only [List.length_cons] at hw ⊢; omega) ss' hss'
            exact ⟨[c, d] :: gs', IsSeg.two c d rest2 gs' hs2 hseg, rfl⟩
          · rw [if_neg hs2] at h2
            cases h2

theorem mem_specSegmentations {symbols : List (List Char)} {w : List Char}
    {ss : List (List Char)} :
    ss ∈ specSegmentations symbols w ↔
      ∃ gs, IsSeg symbols w gs ∧ ss = gs.map capitalize := by
  constructor
  · exact fun h => spec_mem_seg w.length w (Nat.le_refl _) ss h
  · rintro ⟨gs, hseg, rfl⟩
    exact seg_mem_spec hseg

/-! ## Paths in the built graph versus segmentations -/

theorem chain_to_seg (word : List Char) (symbols : List (List Char)) :
    ∀ (q : List Node) (t l : Node),
      validTok word symbols t →
      List.Chain' (fun a b =>
        (some a, b) ∈
          (build_spelling_graph word ⟨[], []⟩ symbols).children_of)
        (t :: q) →
      (t :: q).getLast? = some l →
      l.position + l.value.length = word.length →
      IsSeg symbols (word.drop t.position) ((t :: q).map Node.value) := by
  intro q
  induction q with
  | nil =>
    intro t l hvt hchain hlast hend
    have hlt : t = l := by simpa using hlast
    obtain ⟨tv, tp⟩ := t
    rcases validTok_cases hvt rfl with
      ⟨c, rest, hdrop, heq, hsym⟩ | ⟨c, d, rest2, hdrop, heq, hsym⟩
    · injection heq with hv1 _
      subst hv1
      have hend' : tp + 1 = word.length := by rw [← hlt] at hend; exact hend
      have hlen := congrArg List.length hdrop
      simp only [List.length_drop, List.length_cons] at hlen
      have hrest : rest = [] := List.eq_nil_of_length_eq_zero (by omega)
      subst hrest
      rw [hdrop]
      exact IsSeg.one c [] [] hsym IsSeg.nil
    · injection heq with hv1 _
      subst hv1
      have hend' : tp + 2 = word.length := by rw [← hlt] at hend; exact hend
      have hlen := congrArg List.length hdrop
      simp only [List.length_drop, List.length_cons] at hlen
      have hrest : rest2 = [] := List.eq_nil_of_length_eq_zero (by omega)
      subst hrest
      rw [hdrop]
      exact IsSeg.two c d [] [] hsym IsSeg.nil
  | cons u q' ih =>
    intro t l hvt hchain hlast hend
    have hedge := (List.chain'_cons.mp hchain).1
    have hspec := (build_children_iff word symbols (some t, u)).mp hedge
    have hvu : validTok word symbols u := hspec.1
    have htail := ih u l hvu (List.chain'_cons.mp hchain).2
      (by rw [List.getLast?_cons_cons] at hlast; exact hlast) hend
    obtain ⟨tv, tp⟩ := t
    have hupos : u.position =
        (⟨tv, tp⟩ : Node).position + (⟨tv, tp⟩ : Node).value.length :=
      hspec.2.2.2
    rcases validTok_cases hvt rfl with
      ⟨c, rest, hdrop, heq, hsym⟩ | ⟨c, d, rest2, hdrop, heq, hsym⟩
    · injection heq with hv1 _
      subst hv1
      have hupos' : u.position = tp + 1 := hupos
      have hdnext : word.drop (tp + 1) = rest := drop_cons_next hdrop
      rw [hupos', hdnext] at htail
      rw [hdrop]
      exact IsSeg.one c rest _ hsym htail
    · injection heq with hv1 _
      subst hv1
      have hupos' : u.position = tp + 2 := hupos
      have hd1 : word.drop (tp + 1) = d :: rest2 := drop_cons_next hdrop
      have hd2 : word.drop (tp + 2) = rest2 := drop_cons_next hd1
      rw [hupos', hd2] at htail
      rw [hdrop]
      exact IsSeg.two c d rest2 _ hsym htail

theorem chain_all_valid (word : List Char) (symbols : List (List Char)) :
    ∀ (q : List Node),
      List.Chain' (fun a b =>
        (some a, b) ∈
          (build_spelling_graph word ⟨[], []⟩ symbols).children_of) q →
      (∀ t, q.head? = some t → validTok word symbols t) →
      ∀ t ∈ q, validTok word symbols t := by
  intro q
  induction q with
  | nil => intro _ _ t ht; cases ht
  | cons a q' ih =>
    intro hchain hhead t ht
    rcases List.mem_cons.mp ht with rfl | ht
    · exact hhead t rfl
    · refine ih (List.chain'_cons'.mp hchain).2 ?_ t ht
      intro u hu
      have hedge := (List.chain'_cons'.mp hchain).1 u hu
      exact ((build_children_iff word symbols (some a, u)).mp hedge).1

theorem chain_contig (word : List Char) (symbols : List (List Char))
    {q : List Node}
    (h : List.Chain' (fun a b =>
      (some a, b) ∈
        (build_spelling_graph word ⟨[], []⟩ symbols).children_of) q) :
    List.Chain' (fun a b => b.position = a.position + a.value.length) q := by
  refine h.imp ?_
  intro a b hab
  exact ((build_children_iff word symbols (some a, b)).mp hab).2.2.2

theorem toNodes_map_value : ∀ (gs : List (List Char)) (P : Nat),
    (toNodes gs P).map Node.value = gs := by
  intro gs
  induction gs with
  | nil => intro P; rfl
  | cons g gs' ih => intro P; simp [toNodes, ih]

theorem toNodes_pos_ge : ∀ (gs : List (List Char)) (P : Nat),
    ∀ t ∈ toNodes gs P, P ≤ t.position := by
  intro gs
  induction gs with
  | nil => intro P t ht; cases ht
  | cons g gs' ih =>
    intro P t ht
    rcases List.mem_cons.mp ht with rfl | ht
    · exact Nat.le_refl _
    · have := ih (P + g.length) t ht
      omega

theorem toNodes_nodup : ∀ (gs : List (List Char)) (P : Nat),
    (∀ g ∈ gs, 1 ≤ g.length) → (toNodes gs P).Nodup := by
  intro gs
  induction gs with
  | nil => intro P _; exact List.nodup_nil
  | cons g gs' ih =>
    intro P hlen
    refine List.nodup_cons.mpr ⟨?_, ih (P + g.length)
      (fun g' hg' => hlen g' (List.mem_cons_of_mem g hg'))⟩
    intro hmem
    have hge := toNodes_pos_ge gs' (P + g.length) _ hmem
    have hg1 := hlen g (List.mem_cons_self g gs')
    simp only [] at hge
    omega

theorem IsSeg_cons_inv {symbols : List (List Char)} {w : List Char}
    {g : List Char} {gs : List (List Char)}
    (h : IsSeg symbols w (g :: gs)) :
    (∃ c w', w = c :: w' ∧ g = [c] ∧ capitalize [c] ∈ symbols ∧
      IsSeg symbols w' gs) ∨
    (∃ c d w', w = c :: d :: w' ∧ g = [c, d] ∧
      capitalize [c, d] ∈ symbols ∧ IsSeg symbols w' gs) := by
  cases h with
  | one c w' gs' hs hseg => exact Or.inl ⟨c, w', rfl, rfl, hs, hseg⟩
  | two c d w' gs' hs hseg => exact Or.inr ⟨c, d, w', rfl, rfl, hs, hseg⟩

/-- The facts needed about the node list of a segmentation placed at a
reachable offset `P`. -/
theorem seg_nodes (word : List Char) (symbols : List (List Char)) :
    ∀ (gs : List (List Char)) (P : Nat),
      IsSeg symbols (word.drop P) gs → P ≤ word.length →
      reachPos word symbols P →
      (∀ t ∈ toNodes gs P, validTok word symbols t ∧
        reachPos word symbols t.position) ∧
      List.Chain' (fun a b =>
        (some a, b) ∈
          (build_spelling_graph word ⟨[], []⟩ symbols).children_of)
        (toNodes gs P) ∧
      (∀ l, (toNodes gs P).getLast? = some l →
        l.position + l.value.length = word.length) := by
  intro gs
  induction gs with
  | nil =>
    intro P hseg hP hreach
    refine ⟨fun t ht => absurd ht (List.not_mem_nil t), ?_, ?_⟩
    · exact List.chain'_nil
    · intro l hl
      cases hl
  | cons g gs' ih =>
    intro P hseg hP hreach
    rcases IsSeg_cons_inv hseg with
      ⟨c, w', hw, rfl, hs, hseg2⟩ | ⟨c, d, w', hw, rfl, hs, hseg2⟩
    · have hdrop : word.drop P = c :: w' := hw
      have hvt : validTok word symbols ⟨[c], P⟩ := validTok_single hdrop hs
      have hnext : word.drop (P + 1) = w' := drop_cons_next hdrop
      have hP1 : P + 1 ≤ word.length := by
        have := drop_cons_lt hdrop
        omega
      have hreach1 : reachPos word symbols (P + 1) :=
        reachPos_extend hreach rfl hvt
      have IH := ih (P + 1) (by rw [hnext]; exact hseg2) hP1 hreach1
      have hshow : toNodes ([c] :: gs') P =
          ⟨[c], P⟩ :: toNodes gs' (P + 1) := rfl
      rw [hshow]
      refine ⟨?_, ?_, ?_⟩
      · intro t ht
        rcases List.mem_cons.mp ht with rfl | ht
        · exact ⟨hvt, hreach⟩
        · exact IH.1 t ht
      · refine List.chain'_cons'.mpr ⟨?_, IH.2.1⟩
        intro u hu
        have humem : u ∈ toNodes gs' (P + 1) := List.mem_of_mem_head? hu
        have hup : u.position = P + 1 := by
          cases gs' with
          | nil => cases hu
          | cons g2 gs3 =>
            have huq : u = ⟨g2, P + 1⟩ := by
              have := hu
              simp [toNodes] at this
              exact this.symm
            rw [huq]
        refine (build_children_iff word symbols (some ⟨[c], P⟩, u)).mpr ?_
        exact ⟨(IH.1 u humem).1, hvt, hreach, by rw [hup]; rfl⟩
      · intro l hl
        cases gs' with
        | nil =>
          have hlt : l = ⟨[c], P⟩ := by simpa [toNodes] using hl.symm
          subst hlt
          have hw' : w' = [] := IsSeg_nil_right hseg2
          subst hw'
          have hlen := congrArg List.length hdrop
          simp only [List.length_drop, List.length_cons,
            List.length_nil] at hlen
          show P + 1 = word.length
          omega
        | cons g2 gs3 =>
          refine IH.2.2 l ?_
          rw [← hl]
          rfl
    · have hdrop : word.drop P = c :: d :: w' := hw
      have hvt : validTok word symbols ⟨[c, d], P⟩ := validTok_double hdrop hs
      have hd1 : word.drop (P + 1) = d :: w' := drop_cons_next hdrop
      have hnext : word.drop (P + 2) = w' := drop_cons_next hd1
      have hP2 : P + 2 ≤ word.length := by
        have := drop_cons_lt hd1
        omega
      have hreach2 : reachPos word symbols (P + 2) :=
        reachPos_extend hreach rfl hvt
      have IH := ih (P + 2) (by rw [hnext]; exact hseg2) hP2 hreach2
      have hshow : toNodes ([c, d] :: gs') P =
          ⟨[c, d], P⟩ :: toNodes gs' (P + 2) := rfl
      rw [hshow]
      refine ⟨?_, ?_, ?_⟩
      · intro t ht
        rcases List.mem_cons.mp ht with rfl | ht
        · exact ⟨hvt, hreach⟩
        · exact IH.1 t ht
      · refine List.chain'_cons'.mpr ⟨?_, IH.2.1⟩
        intro u hu
        have humem : u ∈ toNodes gs' (P + 2) := List.mem_of_mem_head? hu
        have hup : u.position = P + 2 := by
          cases gs' with
          | nil => cases hu
          | cons g2 gs3 =>
            have huq : u = ⟨g2, P + 2⟩ := by
              have := hu
              simp [toNodes] at this
              exact this.symm
            rw [huq]
        refine (build_children_iff word symbols
          (some ⟨[c, d], P⟩, u)).mpr ?_
        exact ⟨(IH.1 u humem).1, hvt, hreach, by rw [hup]; rfl⟩
      · intro l hl
        cases gs' with
        | nil =>
          have hlt : l = ⟨[c, d], P⟩ := by simpa [toNodes] using hl.symm
          subst hlt
          have hw' : w' = [] := IsSeg_nil_right hseg2
          subst hw'
          have hlen := congrArg List.length hdrop
          simp only [List.length_drop, List.length_cons,
            List.length_nil] at hlen
          show P + 2 = word.length
          omega
        | cons g2 gs3 =>
          refine IH.2.2 l ?_
          rw [← hl]
          rfl

theorem edgesOfPath_map_snd : ∀ (q : List Node) (prev : Option Node),
    (edgesOfPath prev q).map Prod.snd = q := by
  intro q
  induction q with
  | nil => intro prev; rfl
  | cons t qt ih => intro prev; simp [edgesOfPath, ih]

theorem edgesOfPath_subset {children : List (Option Node × Node)} :
    ∀ (q : List Node) (prev : Option Node),
      (∀ t, q.head? = some t → (prev, t) ∈ children) →
      List.Chain' (fun a b => (some a, b) ∈ children) q →
      edgesOfPath prev q ⊆ children := by
  intro q
  induction q with
  | nil => intro prev _ _ e he; cases he
  | cons t qt ih =>
    intro prev hhead hchain e he
    rcases List.mem_cons.mp he with rfl | he
    · exact hhead t rfl
    · refine ih (some t) ?_ (List.chain'_cons'.mp hchain).2 he
      intro u hu
      exact (List.chain'_cons'.mp hchain).1 u hu

theorem nodup_length_le {l1 l2 : List (Option Node × Node)}
    (hn : l1.Nodup) (hsub : l1 ⊆ l2) : l1.length ≤ l2.length := by
  have h1 : l1.toFinset.card = l1.length := List.toFinset_card_of_nodup hn
  have h2 : l1.toFinset ⊆ l2.toFinset := fun x hx =>
    List.mem_toFinset.mpr (hsub (List.mem_toFinset.mp hx))
  have h3 := Finset.card_le_card h2
  have h4 : l2.toFinset.card ≤ l2.length := l2.toFinset_card_le
  omega

/-! ## Membership in the sorted output -/

theorem descInsert_perm (x : List (List Char)) (l : List (List (List Char))) :
    (descInsert x l).Perm (x :: l) := by
  induction l with
  | nil => exact List.Perm.refl _
  | cons z zs ih =>
    unfold descInsert
    by_cases h : ltSp x z = true
    · rw [if_pos h]
      exact (ih.cons z).trans (List.Perm.swap x z zs)
    · rw [if_neg h]

theorem sortDesc_perm (l : List (List (List Char))) : (sortDesc l).Perm l := by
  induction l with
  | nil => exact List.Perm.refl _
  | cons x xs ih => exact (descInsert_perm x (sortDesc xs)).trans (ih.cons x)

theorem mem_sortDesc {y : List (List Char)} {l : List (List (List Char))} :
    y ∈ sortDesc l ↔ y ∈ l :=
  (sortDesc_perm l).mem_iff

/-! ## Soundness and completeness of `spell` -/

theorem spell_sound (w : List Char) (s : List (List Char))
    (ss : List (List Char)) (h : ss ∈ spell w s) :
    ∃ gs, IsSeg ELEMENTS (stripDigits w) gs ∧ ss = gs.map capitalize := by
  simp only [spell] at h
  rw [mem_sortDesc] at h
  obtain ⟨f, hf, h⟩ := List.mem_flatMap.mp h
  obtain ⟨l, hl, h⟩ := List.mem_flatMap.mp h
  obtain ⟨path, hpath, rfl⟩ := List.mem_map.mp h
  have hfc := (build_children_iff (stripDigits w) ELEMENTS (none, f)).mp
    (mem_firsts.mp hf)
  have hvf : validTok (stripDigits w) ELEMENTS f := hfc.1
  have hfp : f.position = 0 := hfc.2
  have hlp := (build_parents_iff (stripDigits w) ELEMENTS (none, l)).mp
    (mem_lasts.mp hl)
  have hlend : l.position + l.value.length = (stripDigits w).length :=
    hlp.2.2
  obtain ⟨q, hq, hqne, hqhead, hqlast, hqchain, _, _⟩ :=
    find_all_paths_sound _ _ f l [] path (List.not_mem_nil f) hpath
  simp only [List.nil_append] at hq
  subst hq
  cases path with
  | nil => exact absurd rfl hqne
  | cons t qt =>
    have hts : t = f := by simpa using hqhead
    subst hts
    have hseg := chain_to_seg (stripDigits w) ELEMENTS qt t l hvf hqchain
      hqlast hlend
    rw [hfp, List.drop_zero] at hseg
    refine ⟨(t :: qt).map Node.value, hseg, ?_⟩
    rw [List.map_map]
    rfl

theorem spell_complete (w : List Char) (s : List (List Char))
    (gs : List (List Char)) (hw : stripDigits w ≠ [])
    (hseg : IsSeg ELEMENTS (stripDigits w) gs) :
    gs.map capitalize ∈ spell w s := by
  have hseg0 : IsSeg ELEMENTS ((stripDigits w).drop 0) gs := by
    rw [List.drop_zero]
    exact hseg
  have SN := seg_nodes (stripDigits w) ELEMENTS gs 0 hseg0 (Nat.zero_le _)
    (reachFrom.refl 0)
  cases gs with
  | nil => exact absurd (IsSeg_nil_right hseg) hw
  | cons g0 gs' =>
    have hq0 : toNodes (g0 :: gs') 0 = ⟨g0, 0⟩ :: toNodes gs' (0 + g0.length) :=
      rfl
    have hheadv := SN.1 ⟨g0, 0⟩ (by rw [hq0]; exact List.mem_cons_self _ _)
    have hhead_mem : (⟨g0, 0⟩ : Node) ∈
        (build_spelling_graph (stripDigits w) ⟨[], []⟩ ELEMENTS).firsts :=
      mem_firsts.mpr ((build_children_iff (stripDigits w) ELEMENTS
        (none, ⟨g0, 0⟩)).mpr ⟨hheadv.1, rfl⟩)
    obtain ⟨lt, hlt⟩ : ∃ lt, (toNodes (g0 :: gs') 0).getLast? = some lt := by
      rw [hq0]
      exact ⟨_, List.getLast?_eq_getLast _ (List.cons_ne_nil _ _)⟩
    have hltmem : lt ∈ toNodes (g0 :: gs') 0 :=
      List.mem_of_getLast?_eq_some hlt
    have hltv := SN.1 lt hltmem
    have hlast_mem : lt ∈
        (build_spelling_graph (stripDigits w) ⟨[], []⟩ ELEMENTS).lasts :=
      mem_lasts.mpr ((build_parents_iff (stripDigits w) ELEMENTS
        (none, lt)).mpr ⟨hltv.1, hltv.2, SN.2.2 lt hlt⟩)
    have hnd : (toNodes (g0 :: gs') 0).Nodup := by
      refine toNodes_nodup _ 0 ?_
      intro g hg
      rcases (IsSeg_glyphs hseg g hg).1 with h1 | h1 <;> omega
    have hsub : edgesOfPath none (toNodes (g0 :: gs') 0) ⊆
        (build_spelling_graph (stripDigits w) ⟨[], []⟩ ELEMENTS).children_of := by
      refine edgesOfPath_subset _ none ?_ SN.2.1
      intro t ht
      have hteq : t = ⟨g0, 0⟩ := by
        rw [hq0] at ht
        simpa using ht.symm
      subst hteq
      exact (build_children_iff (stripDigits w) ELEMENTS
        (none, ⟨g0, 0⟩)).mpr ⟨hheadv.1, rfl⟩
    have hE_nodup : (edgesOfPath none (toNodes (g0 :: gs') 0)).Nodup := by
      refine List.Nodup.of_map Prod.snd ?_
      rw [edgesOfPath_map_snd]
      exact hnd
    have hlen : (toNodes (g0 :: gs') 0).length ≤
        (build_spelling_graph (stripDigits w) ⟨[], []⟩
          ELEMENTS).children_of.length := by
      have h1 := nodup_length_le hE_nodup hsub
      have h2 := congrArg List.length
        (edgesOfPath_map_snd (toNodes (g0 :: gs') 0) none)
      simp only [List.length_map] at h2
      omega
    have hcomp := find_all_paths_complete
      (build_spelling_graph (stripDigits w) ⟨[], []⟩ ELEMENTS).children_of
      (toNodes gs' (0 + g0.length))
      ((build_spelling_graph (stripDigits w) ⟨[], []⟩
        ELEMENTS).children_of.length + 1)
      ⟨g0, 0⟩ lt []
      (by rw [← hq0]; exact SN.2.1)
      (by rw [← hq0]; exact hlt)
      (by rw [← hq0]; exact hnd)
      (by intro x _; exact List.not_mem_nil x)
      (by
        have h3 : (toNodes (g0 :: gs') 0).length =
            (toNodes gs' (0 + g0.length)).length + 1 := by rw [hq0]; rfl
        omega)
    simp only [spell]
    rw [mem_sortDesc]
    refine List.mem_flatMap.mpr ⟨⟨g0, 0⟩, hhead_mem, ?_⟩
    refine List.mem_flatMap.mpr ⟨lt, hlast_mem, ?_⟩
    refine List.mem_map.mpr ⟨toNodes (g0 :: gs') 0, ?_, ?_⟩
    · rw [hq0]
      simpa using hcomp
    · have h4 := toNodes_map_value (g0 :: gs') 0
      calc (toNodes (g0 :: gs') 0).map (fun node => capitalize node.value)
          = ((toNodes (g0 :: gs') 0).map Node.value).map capitalize := by
            rw [List.map_map]; rfl
        _ = (g0 :: gs').map capitalize := by rw [h4]

/-! ## Claims C1 and C5 -/

/-- C1 (amended): for every word whose digit-stripped form is nonempty,
`spell` returns exactly the set of canonical-symbol segmentations of the
stripped word over the `ELEMENTS` table — the table `spell` actually uses,
since its `symbols` parameter is not forwarded to the graph builder. -/
theorem claim_C1 (w : List Char) (s : List (List Char))
    (hne : stripDigits w ≠ []) (ss : List (List Char)) :
    ss ∈ spell w s ↔ ss ∈ specSegmentations ELEMENTS (stripDigits w) := by
  rw [mem_specSegmentations]
  constructor
  · exact fun h => spell_sound w s ss h
  · rintro ⟨gs, hseg, rfl⟩
    exact spell_complete w s gs hne hseg

/-- C1 fails as literally stated, in two ways.  First, for the empty word
the empty partition is a valid segmentation but `spell` returns no
spellings.  Second, `spell` ignores its symbol-set argument: with the
symbol set `["Q"]` the word "h" has no valid partition, yet `spell`
still returns the `ELEMENTS`-based spelling `("H",)`. -/
theorem claim_C1_counterexample :
    (([] : List (List Char)) ∈ specSegmentations ELEMENTS (stripDigits []) ∧
      ([] : List (List Char)) ∉ spell [] ELEMENTS) ∧
      (["H".toList] ∈ spell "h".toList ["Q".toList] ∧
        specSegmentations ["Q".toList] (stripDigits "h".toList) = []) := by
  decide

theorem claim_C1_witness :
    stripDigits "h".toList ≠ [] ∧
      (["H".toList] ∈ spell "h".toList ELEMENTS ↔
        ["H".toList] ∈ specSegmentations ELEMENTS (stripDigits "h".toList)) :=
  ⟨by decide, claim_C1 "h".toList ELEMENTS (by decide) ["H".toList]⟩

/-- C5 (amended): when the digit-stripped word has no full-word partition
into valid symbols of the `ELEMENTS` table — the table `spell` actually
uses, since its `symbols` parameter is not forwarded — `spell` returns the
empty sequence (and, being a total function, raises no error). -/
theorem claim_C5 (w : List Char) (s : List (List Char))
    (h : specSegmentations ELEMENTS (stripDigits w) = []) :
    spell w s = [] := by
  cases hsp : spell w s with
  | nil => rfl
  | cons ss rest =>
    exfalso
    have hmem : ss ∈ spell w s := by
      rw [hsp]
      exact List.mem_cons_self _ _
    obtain ⟨gs, hseg, rfl⟩ := spell_sound w s ss hmem
    have hspec := seg_mem_spec hseg
    rw [h] at hspec
    cases hspec

/-- C5 fails as literally stated when the symbol set is taken from
`spell`'s own argument: with symbols `[]` no partition of "h" exists, yet
`spell` returns a nonempty result (built over `ELEMENTS`). -/
theorem claim_C5_counterexample :
    spell "h".toList [] ≠ [] ∧
      specSegmentations [] (stripDigits "h".toList) = [] := by
  decide

theorem claim_C5_witness :
    specSegmentations ELEMENTS (stripDigits "q".toList) = [] ∧
      spell "q".toList ELEMENTS = [] :=
  ⟨by decide, claim_C5 "q".toList ELEMENTS (by decide)⟩

/-! ## The lexicographic order used by the sort -/

theorem ltCh_irrefl : ∀ a : List Char, ltCh a a = false := by
  intro a
  induction a with
  | nil => rfl
  | cons c cs ih => simp [ltCh, ih]

theorem ltCh_trans : ∀ a b c : List Char,
    ltCh a b = true → ltCh b c = true → ltCh a c = true := by
  intro a
  induction a with
  | nil =>
    intro b c hab hbc
    cases b with
    | nil => simp [ltCh] at hab
    | cons y ys =>
      cases c with
      | nil => simp [ltCh] at hbc
      | cons z zs => simp [ltCh]
  | cons x xs ih =>
    intro b c hab hbc
    cases b with
    | nil => simp [ltCh] at hab
    | cons y ys =>
      cases c with
      | nil => simp [ltCh] at hbc
      | cons z zs =>
        simp only [ltCh, Bool.or_eq_true, Bool.and_eq_true,
          decide_eq_true_eq] at hab hbc ⊢
        rcases hab with h1 | ⟨he1, h2⟩
        · rcases hbc with h3 | ⟨he3, h4⟩
          · exact Or.inl (h1.trans h3)
          · subst he3
            exact Or.inl h1
        · subst he1
          rcases hbc with h3 | ⟨he3, h4⟩
          · exact Or.inl h3
          · subst he3
            exact Or.inr ⟨rfl, ih ys zs h2 h4⟩

theorem ltCh_tri : ∀ a b : List Char,
    a = b ∨ ltCh a b = true ∨ ltCh b a = true := by
  intro a
  induction a with
  | nil =>
    intro b
    cases b with
    | nil => exact Or.inl rfl
    | cons y ys => exact Or.inr (Or.inl (by simp [ltCh]))
  | cons x xs ih =>
    intro b
    cases b with
    | nil => exact Or.inr (Or.inr (by simp [ltCh]))
    | cons y ys =>
      rcases lt_trichotomy x y with h | h | h
      · exact Or.inr (Or.inl (by simp [ltCh, h]))
      · subst h
        rcases ih ys with h2 | h2 | h2
        · exact Or.inl (by rw [h2])
        · exact Or.inr (Or.inl (by simp [ltCh, h2]))
        · exact Or.inr (Or.inr (by simp [ltCh, h2]))
      · exact Or.inr (Or.inr (by simp [ltCh, h]))

theorem ltSp_irrefl : ∀ a : List (List Char), ltSp a a = false := by
  intro a
  induction a with
  | nil => rfl
  | cons g gs ih => simp [ltSp, ih, ltCh_irrefl]

theorem ltSp_trans : ∀ a b c : List (List Char),
    ltSp a b = true → ltSp b c = true → ltSp a c = true := by
  intro a
  induction a with
  | nil =>
    intro b c hab hbc
    cases b with
    | nil => simp [ltSp] at hab
    | cons y ys =>
      cases c with
      | nil => simp [ltSp] at hbc
      | cons z zs => simp [ltSp]
  | cons x xs ih =>
    intro b c hab hbc
    cases b with
    | nil => simp [ltSp] at hab
    | cons y ys =>
      cases c with
      | nil => simp [ltSp] at hbc
      | cons z zs =>
        simp only [ltSp, Bool.or_eq_true, Bool.and_eq_true,
          decide_eq_true_eq] at hab hbc ⊢
        rcases hab with h1 | ⟨he1, h2⟩
        · rcases hbc with h3 | ⟨he3, h4⟩
          · exact Or.inl (ltCh_trans x y z h1 h3)
          · subst he3
            exact Or.inl h1
        · subst he1
          rcases hbc with h3 | ⟨he3, h4⟩
          · exact Or.inl h3
          · subst he3
            exact Or.inr ⟨rfl, ih ys zs h2 h4⟩

theorem ltSp_tri : ∀ a b : List (List Char),
    a = b ∨ ltSp a b = true ∨ ltSp b a = true := by
  intro a
  induction a with
  | nil =>
    intro b
    cases b with
    | nil => exact Or.inl rfl
    | cons y ys => exact Or.inr (Or.inl (by simp [ltSp]))
  | cons x xs ih =>
    intro b
    cases b with
    | nil => exact Or.inr (Or.inr (by simp [ltSp]))
    | cons y ys =>
      rcases ltCh_tri x y with h | h | h
      · subst h
        rcases ih ys with h2 | h2 | h2
        · exact Or.inl (by rw [h2])
        · exact Or.inr (Or.inl (by simp [ltSp, h2]))
        · exact Or.inr (Or.inr (by simp [ltSp, h2]))
      · exact Or.inr (Or.inl (by simp [ltSp, h]))
      · exact Or.inr (Or.inr (by simp [ltSp, h]))

theorem ltSp_asymm (a b : List (List Char)) (h : ltSp a b = true) :
    ltSp b a = false := by
  cases h2 : ltSp b a with
  | false => rfl
  | true =>
    have h3 := ltSp_trans a b a h h2
    rw [ltSp_irrefl] at h3
    cases h3

theorem pairwise_descInsert (x : List (List Char))
    (l : List (List (List Char)))
    (h : l.Pairwise (fun a b => ltSp a b = false)) :
    (descInsert x l).Pairwise (fun a b => ltSp a b = false) := by
  induction l with
  | nil => simp [descInsert, ltSp_irrefl]
  | cons y ys ih =>
    have h1 := (List.pairwise_cons.mp h).1
    have h2 := (List.pairwise_cons.mp h).2
    unfold descInsert
    by_cases hxy : ltSp x y = true
    · rw [if_pos hxy]
      refine List.pairwise_cons.mpr ⟨?_, ih h2⟩
      intro z hz
      rcases List.mem_cons.mp ((descInsert_perm x ys).mem_iff.mp hz)
        with rfl | h3
      · exact ltSp_asymm z y hxy
      · exact h1 z h3
    · rw [if_neg hxy]
      have hxyf : ltSp x y = false := by
        cases h3 : ltSp x y with
        | false => rfl
        | true => exact absurd h3 hxy
      refine List.pairwise_cons.mpr ⟨?_, h⟩
      intro z hz
      rcases List.mem_cons.mp hz with rfl | hz
      · exact hxyf
      · cases h4 : ltSp x z with
        | false => rfl
        | true =>
          exfalso
          rcases ltSp_tri x y with heq | hlt | hgt
          · rw [heq] at h4
            rw [h1 z hz] at h4
            cases h4
          · rw [hlt] at hxyf
            cases hxyf
          · have h5 := ltSp_trans y x z hgt h4
            rw [h1 z hz] at h5
            cases h5

theorem pairwise_sortDesc (l : List (List (List Char))) :
    (sortDesc l).Pairwise (fun a b => ltSp a b = false) := by
  induction l with
  | nil => simp [sortDesc]
  | cons x xs ih => exact pairwise_descInsert x (sortDesc xs) ih

theorem sortDesc_strict (l : List (List (List Char))) (hn : l.Nodup) :
    (sortDesc l).Pairwise (fun a b => ltSp b a = true) := by
  have h1 := pairwise_sortDesc l
  have h2 : (sortDesc l).Nodup := (sortDesc_perm l).nodup_iff.mpr hn
  refine (h1.and h2).imp ?_
  rintro a b ⟨hf, hne⟩
  rcases ltSp_tri a b with heq | hlt | hgt
  · exact absurd heq hne
  · rw [hlt] at hf
    cases hf
  · exact hgt

/-! ## Injectivity of rendering on positioned paths -/

theorem render_inj (word : List Char) (symbols : List (List Char)) :
    ∀ (q1 q2 : List Node) (P : Nat),
      (∀ t ∈ q1, validTok word symbols t) →
      (∀ t ∈ q2, validTok word symbols t) →
      List.Chain' (fun a b => b.position = a.position + a.value.length) q1 →
      List.Chain' (fun a b => b.position = a.position + a.value.length) q2 →
      (∀ t, q1.head? = some t → t.position = P) →
      (∀ t, q2.head? = some t → t.position = P) →
      q1.map (fun n => capitalize n.value) =
        q2.map (fun n => capitalize n.value) →
      q1 = q2 := by
  intro q1
  induction q1 with
  | nil =>
    intro q2 P _ _ _ _ _ _ hmap
    cases q2 with
    | nil => rfl
    | cons b bs => simp at hmap
  | cons a as ih =>
    intro q2 P hv1 hv2 hc1 hc2 hh1 hh2 hmap
    cases q2 with
    | nil => simp at hmap
    | cons b bs =>
      simp only [List.map_cons, List.cons.injEq] at hmap
      obtain ⟨hcap, hmaps⟩ := hmap
      have hlen : a.value.length = b.value.length := by
        have h5 := congrArg List.length hcap
        rwa [capitalize_length, capitalize_length] at h5
      have hap : a.position = P := hh1 a rfl
      have hbp : b.position = P := hh2 b rfl
      have hav := hv1 a (List.mem_cons_self a as)
      have hbv := hv2 b (List.mem_cons_self b bs)
      have haval : a.value = (word.drop P).take a.value.length := by
        have h5 := hav.2.2.1
        rwa [hap] at h5
      have hbval : b.value = (word.drop P).take a.value.length := by
        have h5 := hbv.2.2.1
        rw [hbp] at h5
        rwa [← hlen] at h5
      have hvals : a.value = b.value := by rw [haval, hbval]
      obtain ⟨av, ap⟩ := a
      obtain ⟨bv, bp⟩ := b
      have h6 : av = bv := hvals
      have h7 : ap = P := hap
      have h8 : bp = P := hbp
      subst h6
      have hpp : ap = bp := by rw [h7, h8]
      subst hpp
      have htail := ih bs (ap + av.length)
        (fun t ht => hv1 t (List.mem_cons_of_mem _ ht))
        (fun t ht => hv2 t (List.mem_cons_of_mem _ ht))
        (List.chain'_cons'.mp hc1).2
        (List.chain'_cons'.mp hc2).2
        (fun t ht => (List.chain'_cons'.mp hc1).1 t ht)
        (fun t ht => (List.chain'_cons'.mp hc2).1 t ht)
        hmaps
      rw [htail]

/-! ## The collected spellings are duplicate-free -/

theorem enum_path_props (word : List Char) (symbols : List (List Char))
    {f l : Node} {path : List Node} {fuel : Nat}
    (hf : f ∈ (build_spelling_graph word ⟨[], []⟩ symbols).firsts)
    (hpath : path ∈ find_all_paths
      (build_spelling_graph word ⟨[], []⟩ symbols).children_of fuel f l []) :
    (∀ t ∈ path, validTok word symbols t) ∧
      List.Chain' (fun a b => b.position = a.position + a.value.length)
        path ∧
      path.head? = some f ∧ path.getLast? = some l := by
  obtain ⟨q, hq, hqne, hh, hl, hchain, _, _⟩ :=
    find_all_paths_sound _ fuel f l [] path (List.not_mem_nil f) hpath
  simp only [List.nil_append] at hq
  subst hq
  have hfc := (build_children_iff word symbols (none, f)).mp
    (mem_firsts.mp hf)
  refine ⟨?_, chain_contig word symbols hchain, hh, hl⟩
  refine chain_all_valid word symbols path hchain ?_
  intro t ht
  rw [hh] at ht
  injection ht with ht
  rw [← ht]
  exact hfc.1

theorem firsts_pos_zero (word : List Char) (symbols : List (List Char))
    {f : Node} (hf : f ∈ (build_spelling_graph word ⟨[], []⟩ symbols).firsts) :
    f.position = 0 :=
  ((build_children_iff word symbols (none, f)).mp (mem_firsts.mp hf)).2

theorem spell_collected_nodup (word : List Char) :
    ((build_spelling_graph word ⟨[], []⟩ ELEMENTS).firsts.flatMap
      (fun first =>
        (build_spelling_graph word ⟨[], []⟩ ELEMENTS).lasts.flatMap
          (fun last =>
            (find_all_paths
              (build_spelling_graph word ⟨[], []⟩ ELEMENTS).children_of
              ((build_spelling_graph word ⟨[], []⟩
                ELEMENTS).children_of.length + 1) first last []).map
              (fun path =>
                path.map (fun node => capitalize node.value))))).Nodup := by
  refine List.nodup_flatMap.mpr ⟨?_, ?_⟩
  · intro f hf
    refine List.nodup_flatMap.mpr ⟨?_, ?_⟩
    · intro l hl
      refine List.Nodup.map_on ?_
        (find_all_paths_nodup _ (build_children_nodup word ELEMENTS) _ f l
          [] (List.not_mem_nil f))
      intro p1 h1 p2 h2 hre
      have props1 := enum_path_props word ELEMENTS hf h1
      have props2 := enum_path_props word ELEMENTS hf h2
      refine render_inj word ELEMENTS p1 p2 0 props1.1 props2.1
        props1.2.1 props2.2.1 ?_ ?_ hre
      · intro t ht
        rw [props1.2.2.1] at ht
        injection ht with ht
        rw [← ht]
        exact firsts_pos_zero word ELEMENTS hf
      · intro t ht
        rw [props2.2.2.1] at ht
        injection ht with ht
        rw [← ht]
        exact firsts_pos_zero word ELEMENTS hf
    · refine List.Pairwise.imp_of_mem ?_
        (lasts_nodup (build_parents_nodup word ELEMENTS))
      intro l1 l2 hl1 hl2 hne r hr1 hr2
      obtain ⟨p1, hp1, hrend1⟩ := List.mem_map.mp hr1
      obtain ⟨p2, hp2, hrend2⟩ := List.mem_map.mp hr2
      have props1 := enum_path_props word ELEMENTS hf hp1
      have props2 := enum_path_props word ELEMENTS hf hp2
      have hpeq : p1 = p2 := by
        refine render_inj word ELEMENTS p1 p2 0 props1.1 props2.1
          props1.2.1 props2.2.1 ?_ ?_ (hrend1.trans hrend2.symm)
        · intro t ht
          rw [props1.2.2.1] at ht
          injection ht with ht
          rw [← ht]
          exact firsts_pos_zero word ELEMENTS hf
        · intro t ht
          rw [props2.2.2.1] at ht
          injection ht with ht
          rw [← ht]
          exact firsts_pos_zero word ELEMENTS hf
      subst hpeq
      have h9 := props1.2.2.2
      rw [props2.2.2.2] at h9
      injection h9 with h9
      exact hne h9.symm
  · refine List.Pairwise.imp_of_mem ?_
      (firsts_nodup (build_children_nodup word ELEMENTS))
    intro f1 f2 hf1 hf2 hne r hr1 hr2
    obtain ⟨l1, hl1, hr1b⟩ := List.mem_flatMap.mp hr1
    obtain ⟨l2, hl2, hr2b⟩ := List.mem_flatMap.mp hr2
    obtain ⟨p1, hp1, hrend1⟩ := List.mem_map.mp hr1b
    obtain ⟨p2, hp2, hrend2⟩ := List.mem_map.mp hr2b
    have props1 := enum_path_props word ELEMENTS hf1 hp1
    have props2 := enum_path_props word ELEMENTS hf2 hp2
    have hpeq : p1 = p2 := by
      refine render_inj word ELEMENTS p1 p2 0 props1.1 props2.1
        props1.2.1 props2.2.1 ?_ ?_ (hrend1.trans hrend2.symm)
      · intro t ht
        rw [props1.2.2.1] at ht
        injection ht with ht
        rw [← ht]
        exact firsts_pos_zero word ELEMENTS hf1
      · intro t ht
        rw [props2.2.2.1] at ht
        injection ht with ht
        rw [← ht]
        exact firsts_pos_zero word ELEMENTS hf2
    subst hpeq
    have h9 := props1.2.2.1
    rw [props2.2.2.1] at h9
    injection h9 with h9
    exact hne h9.symm

/-- C2: whenever `spell` returns more than one spelling, the returned
sequence is strictly descending in the lexicographic order on symbol
tuples; in particular it contains no duplicates. -/
theorem claim_C2 (w : List Char) (s : List (List Char))
    (h : 1 < (spell w s).length) :
    (spell w s).Pairwise (fun a b => ltSp b a = true) := by
  simp only [spell]
  exact sortDesc_strict _ (spell_collected_nodup (stripDigits w))

theorem claim_C2_witness :
    1 < (spell "because".toList ELEMENTS).length ∧
      (spell "because".toList ELEMENTS).Pairwise
        (fun a b => ltSp b a = true) :=
  ⟨by decide, claim_C2 "because".toList ELEMENTS (by decide)⟩

end PyChemistry
